import Mathlib

/-!
Verification development for the `nn` feedforward neural-network library
(src/src/lib.rs).  The Rust code is shallowly embedded:

* `f64` values are modelled as real numbers `ℝ`;
* the random number generator behind `rand::thread_rng().gen_range(-0.5, 0.5)`
  is modelled as an explicit stream `rng : ℕ → ℝ` of drawn values;
* the wall-clock comparison of the `Timer` halt condition is modelled as an
  abstract boolean observation per halting check;
* fatal `panic!`/`assert!` failures are modelled as `none` results;
* the training loops, which need not terminate for the `MSE` and `Timer`
  halt conditions, take an explicit fuel parameter, `none` meaning that the
  loop has not halted within that many iterations.

Definitions mirror the source functions of the same (or closely related)
names; comments give the corresponding source construct where the shape of
the Lean definition differs from the Rust loop it embeds.
-/

namespace RustNN

noncomputable section

open Classical

/-- sigmoid activation, `fn sigmoid` in lib.rs: 1 / (1 + e^(-y)). -/
def sigmoid (y : ℝ) : ℝ := 1 / (1 + Real.exp (-y))

/-- sum of pairwise products of two lists, the `it.zip(values.iter())` loop
inside `fn modified_dotprod`; zipping truncates at the shorter list exactly
as the Rust iterator zip does. -/
def dotZip : List ℝ → List ℝ → ℝ
  | w :: ws, v :: vs => w * v + dotZip ws vs
  | _, _ => 0

/-- weighted sum with bias, `fn modified_dotprod`: the threshold weight at
index 0 plus the zip-product of the remaining weights with the values.
The source `unwrap`s the first weight and would panic on an empty node;
every node built by this library is non-empty, and the empty case here
returns the junk value 0. -/
def modified_dotprod (node values : List ℝ) : ℝ :=
  match node with
  | [] => 0
  | w :: ws => w + dotZip ws values

/-- the network data structure, `struct NN`: stored layers (each a list of
nodes, each node a list of weights) plus the input-layer size. -/
structure NN where
  layers : List (List (List ℝ))
  num_inputs : ℕ

/-- the layer-by-layer part of `NN::do_run`: each layer's result vector is
the sigmoid of the biased weighted sum of the previous result vector.  The
source pushes each `layer_results` onto `results` and reads the previous
vector back as `results[layer_index]`; the recursion threads that previous
vector directly. -/
def runLayers : List (List (List ℝ)) → List ℝ → List (List ℝ)
  | [], _ => []
  | layer :: rest, prev =>
      let layer_results := layer.map (fun node => sigmoid (modified_dotprod node prev))
      layer_results :: runLayers rest layer_results

/-- forward pass retaining every layer's results, `NN::do_run`: the input
vector is kept at position 0. -/
def do_run (layers : List (List (List ℝ))) (inputs : List ℝ) : List (List ℝ) :=
  inputs :: runLayers layers inputs

/-- public evaluation, `NN::run`: panics (here `none`) when the input length
differs from the input-layer size, otherwise returns the last result vector
of the forward pass (`do_run(inputs).pop().unwrap()`; `do_run` always
returns a non-empty vector, so the `unwrap` never fails and `getLastD` with
a junk default is exact). -/
def NN.run (net : NN) (inputs : List ℝ) : Option (List ℝ) :=
  if inputs.length = net.num_inputs then
    some ((do_run net.layers inputs).getLastD [])
  else none

/-- sum of squared target-minus-result differences, the loop inside
`fn calculate_error`; zip truncation as in the source iterator zip. -/
def sqDiffSum : List ℝ → List ℝ → ℝ
  | r :: rs, t :: ts => (t - r) ^ 2 + sqDiffSum rs ts
  | _, _ => 0

/-- mean squared error of the output layer, `fn calculate_error`: the
squared-difference sum over the last result vector, divided by the number
of output nodes.  The source indexes `results[results.len()-1]` and would
panic on an empty results list, which `do_run` never produces. -/
def calculate_error (results : List (List ℝ)) (targets : List ℝ) : ℝ :=
  let last_results := results.getLastD []
  sqDiffSum last_results targets / (last_results.length : ℝ)

/-- the inner sum of the hidden-node error in `NN::calculate_weight_updates`:
over the zip of next-layer nodes with next-layer errors, the weight at index
`node_index + 1` (skipping the threshold weight at 0) times the next node's
error.  Out-of-range indexing, a panic in the source, yields the junk 0. -/
def errSum (next_nodes : List (List ℝ)) (next_errors : List ℝ) (node_index : ℕ) : ℝ :=
  match next_nodes, next_errors with
  | nd :: nds, e :: es => nd.getD (node_index + 1) 0 * e + errSum nds es node_index
  | _, _ => 0

/-- output-layer node errors, the `s == layers.len() - 1` branch of
`NN::calculate_weight_updates`: result·(1 − result)·(target − result),
walking nodes, results and targets together (the source indexes
`targets[node_index]` and would panic were targets shorter). -/
def outputLayerErrors : List (List ℝ) → List ℝ → List ℝ → List ℝ
  | _node :: nodes, result :: rs, t :: ts =>
      result * (1 - result) * (t - result) :: outputLayerErrors nodes rs ts
  | _, _, _ => []

/-- hidden-layer node errors, the other branch of
`NN::calculate_weight_updates`: result·(1 − result)·(weighted error sum of
the next layer), with `node_index` threaded from the given start. -/
def hiddenLayerErrors (next_nodes : List (List ℝ)) (next_errors : List ℝ) :
    List (List ℝ) → List ℝ → ℕ → List ℝ
  | _node :: nodes, result :: rs, node_index =>
      result * (1 - result) * errSum next_nodes next_errors node_index ::
        hiddenLayerErrors next_nodes next_errors nodes rs (node_index + 1)
  | _, _, _ => []

/-- per-node weight updates, the `weight_index` loop of
`NN::calculate_weight_updates`: node_error · 1 for the threshold weight at
index 0, node_error · prev_layer_results[weight_index − 1] for the rest
(the source indexes and would panic were the previous results shorter). -/
def nodeWeightUpdatesTail (node_error : ℝ) : List ℝ → List ℝ → List ℝ
  | _w :: ws, p :: ps => node_error * p :: nodeWeightUpdatesTail node_error ws ps
  | _, _ => []

/-- weight updates of one node, one entry per weight of the node. -/
def nodeWeightUpdates (node_error : ℝ) (node prev_layer_results : List ℝ) : List ℝ :=
  match node with
  | [] => []
  | _w :: ws => node_error * 1 :: nodeWeightUpdatesTail node_error ws prev_layer_results

/-- weight updates of one layer: nodes zipped with their already-computed
errors, as the source builds `layer_weight_updates` in its node loop. -/
def layerWeightUpdates (prev_layer_results : List ℝ) :
    List (List ℝ) → List ℝ → List (List ℝ)
  | node :: nodes, e :: es =>
      nodeWeightUpdates e node prev_layer_results :: layerWeightUpdates prev_layer_results nodes es
  | _, _ => []

/-- core of `NN::calculate_weight_updates`.  The source iterates the zip of
layers with `results[1..]` in reverse, pushing each layer's errors and
weight updates and finally reversing the updates; this recursion walks the
layers forward, computes the tail (the layers after the current one) first
and conses the current layer's contribution on, producing the same
already-reversed (forward-order) lists.  `prev_res` is `results[layer_index]`
and `res :: rest_res` is `results[layer_index..]` shifted by one.  Returns
(network_errors, network_weight_updates), both in forward layer order. -/
def cwuAux : List (List (List ℝ)) → List ℝ → List (List ℝ) → List ℝ →
    List (List ℝ) × List (List (List ℝ))
  | [], _, _, _ => ([], [])
  | _ :: _, _, [], _ => ([], [])
  | layer :: rest, prev_res, res :: rest_res, targets =>
      match rest with
      | [] =>
          let errs := outputLayerErrors layer res targets
          ([errs], [layerWeightUpdates prev_res layer errs])
      | next :: _ =>
          let tail := cwuAux rest res rest_res targets
          let errs := hiddenLayerErrors next (tail.1.headD []) layer res 0
          (errs :: tail.1, layerWeightUpdates prev_res layer errs :: tail.2)

/-- the node errors computed by `NN::calculate_weight_updates`
(`network_errors` in the source), in forward layer order. -/
def network_errors (layers : List (List (List ℝ))) (results : List (List ℝ))
    (targets : List ℝ) : List (List ℝ) :=
  (cwuAux layers (results.headD []) (results.drop 1) targets).1

/-- all weight updates by backpropagation, `NN::calculate_weight_updates`,
in forward layer order (the source builds them backward and reverses). -/
def calculate_weight_updates (layers : List (List (List ℝ))) (results : List (List ℝ))
    (targets : List ℝ) : List (List (List ℝ)) :=
  (cwuAux layers (results.headD []) (results.drop 1) targets).2

/-- weight-shaped tracker filled with a placeholder, `NN::make_weights_tracker`. -/
def make_weights_tracker {α : Type} (layers : List (List (List ℝ))) (place_holder : α) :
    List (List (List α)) :=
  layers.map (fun layer => layer.map (fun node => node.map (fun _ => place_holder)))

/-- per-node momentum update, the `weight_index` loop of `NN::update_weights`:
delta = rate·update + momentum·previous delta; the weight is incremented by
delta and the tracker entry overwritten with delta.  Returns (new weights,
new previous deltas).  The source indexes the update and tracker lists and
would panic were they shorter than the node; the recursion truncates
instead, which agrees on the equal-shaped inputs that occur. -/
def updateNode (rate momentum : ℝ) : List ℝ → List ℝ → List ℝ → List ℝ × List ℝ
  | w :: ws, u :: us, p :: ps =>
      let delta := rate * u + momentum * p
      let rest := updateNode rate momentum ws us ps
      ((w + delta) :: rest.1, delta :: rest.2)
  | _, _, _ => ([], [])

/-- per-layer part of `NN::update_weights`. -/
def updateLayer (rate momentum : ℝ) :
    List (List ℝ) → List (List ℝ) → List (List ℝ) → List (List ℝ) × List (List ℝ)
  | n :: ns, u :: us, p :: ps =>
      let node := updateNode rate momentum n u p
      let rest := updateLayer rate momentum ns us ps
      (node.1 :: rest.1, node.2 :: rest.2)
  | _, _, _ => ([], [])

/-- momentum-based application of a weight-update structure,
`NN::update_weights`; the source mutates `self.layers` and `prev_deltas`
in place, here both updated structures are returned. -/
def update_weights (layers network_weight_updates prev_deltas : List (List (List ℝ)))
    (rate momentum : ℝ) : List (List (List ℝ)) × List (List (List ℝ)) :=
  match layers, network_weight_updates, prev_deltas with
  | l :: ls, u :: us, p :: ps =>
      let layer := updateLayer rate momentum l u p
      let rest := update_weights ls us ps rate momentum
      (layer.1 :: rest.1, layer.2 :: rest.2)
  | _, _, _ => ([], [])

/-- element-wise sum of two node weight lists, innermost loop of
`fn sum_weights`; the source indexes `new_weights` and would panic were it
shorter, the recursion truncates, agreeing on equal shapes. -/
def sumNode : List ℝ → List ℝ → List ℝ
  | a :: as', b :: bs => (a + b) :: sumNode as' bs
  | _, _ => []

/-- element-wise sum at the layer level of `fn sum_weights`. -/
def sumLayer : List (List ℝ) → List (List ℝ) → List (List ℝ)
  | a :: as', b :: bs => sumNode a b :: sumLayer as' bs
  | _, _ => []

/-- element-wise sum of two weight-update structures, `fn sum_weights`
(the source adds `new_weights` into `orig_weights` in place). -/
def sum_weights : List (List (List ℝ)) → List (List (List ℝ)) → List (List (List ℝ))
  | a :: as', b :: bs => sumLayer a b :: sum_weights as' bs
  | _, _ => []

/-- consecutive chunks of the given size, Rust's `slice::chunks`: the final
chunk may be smaller; chunk size 0 panics in Rust (junk `[]` here). -/
def chunksOf {α : Type} (n : ℕ) : List α → List (List α)
  | [] => []
  | x :: xs =>
      if _h : n = 0 then []
      else (x :: xs).take n :: chunksOf n ((x :: xs).drop n)
  termination_by l => l.length
  decreasing_by simp [List.length_drop]; omega

/-- mutable state threaded through one training call: the network's layers,
the previous-delta momentum tracker and the accumulated epoch error. -/
structure TrainState where
  layers : List (List (List ℝ))
  prevDeltas : List (List (List ℝ))
  err : ℝ

/-- body of the per-example loop of `NN::train_incremental`: run forward,
compute the backpropagation updates, add this example's mean-squared error
to the accumulator, and apply the updates immediately. -/
def incExampleStep (rate momentum : ℝ) (s : TrainState) (ex : List ℝ × List ℝ) : TrainState :=
  let results := do_run s.layers ex.1
  let weight_updates := calculate_weight_updates s.layers results ex.2
  let e := s.err + calculate_error results ex.2
  let lp := update_weights s.layers weight_updates s.prevDeltas rate momentum
  ⟨lp.1, lp.2, e⟩

/-- one epoch of `NN::train_incremental`: reset the accumulated error, then
process every example in order. -/
def incEpochStep (examples : List (List ℝ × List ℝ)) (rate momentum : ℝ)
    (st : TrainState) : TrainState :=
  examples.foldl (incExampleStep rate momentum) ⟨st.layers, st.prevDeltas, 0⟩

/-- body of the per-example combination inside one chunk of
`NN::train_chunk`: the worker's (error, weight updates) for one example,
computed against the chunk's fixed weights, summed into the accumulator. -/
def chunkExampleFold (layers : List (List (List ℝ))) (acc : ℝ × List (List (List ℝ)))
    (ex : List ℝ × List ℝ) : ℝ × List (List (List ℝ)) :=
  let results := do_run layers ex.1
  let weight_updates := calculate_weight_updates layers results ex.2
  (acc.1 + calculate_error results ex.2, sum_weights acc.2 weight_updates)

/-- per-chunk accumulation of `NN::train_chunk`: the pool maps each example
of the chunk to its (error, weight updates) against the current weights and
the results are folded from `(0, make_weights_tracker(0.0))` by summing
errors and summing weight-update structures element-wise.  The pool's
completion order is unspecified in the source; this fold is the in-order
schedule, exact for a single worker thread. -/
def chunkAccum (layers : List (List (List ℝ))) (exs : List (List ℝ × List ℝ)) :
    ℝ × List (List (List ℝ)) :=
  exs.foldl (chunkExampleFold layers) (0, make_weights_tracker layers 0)

/-- the per-chunk body of `NN::train_chunk`: combine the chunk, apply the
combined update once, add the combined error. -/
def chunkStep (rate momentum : ℝ) (s : TrainState) (exs : List (List ℝ × List ℝ)) :
    TrainState :=
  let ew := chunkAccum s.layers exs
  let lp := update_weights s.layers ew.2 s.prevDeltas rate momentum
  ⟨lp.1, lp.2, s.err + ew.1⟩

/-- one epoch of `NN::train_chunk`: reset the accumulated error, split the
examples into chunks, and process the chunks in order. -/
def chunkEpochStep (examples : List (List ℝ × List ℝ)) (rate momentum : ℝ)
    (chunk_size : ℕ) (st : TrainState) : TrainState :=
  (chunksOf chunk_size examples).foldl (chunkStep rate momentum) ⟨st.layers, st.prevDeltas, 0⟩

/-- halt conditions, `enum HaltCondition`.  `Timer(duration)` compares
elapsed wall-clock time against the duration at each check; elapsed real
time is outside a shallow embedding, so the variant carries the abstract
outcome of that comparison as a function of the epoch counter (the loop
state at the moment of the check). -/
inductive HaltCondition where
  | Epochs : ℕ → HaltCondition
  | MSE : ℝ → HaltCondition
  | Timer : (ℕ → Bool) → HaltCondition

/-- the halt check at the top of both training loops: stop at the exact
epoch count, at an accumulated error at or below the target, or when the
timer observation fires. -/
def haltMet : HaltCondition → ℕ → ℝ → Prop
  | .Epochs epochs_halt, epochs, _ => epochs = epochs_halt
  | .MSE target_error, _, err => err ≤ target_error
  | .Timer elapsed, epochs, _ => elapsed epochs = true

/-- the shared epoch loop of `NN::train_incremental` and `NN::train_chunk`:
the halt condition is checked at the top of the body but only once the
epoch counter is positive; otherwise one more epoch (`step`) runs and the
counter is incremented.  Logging (`println!`/`info!`) alters no state and
is omitted.  `fuel` bounds the number of loop iterations; `none` means the
loop has not halted within `fuel` iterations. -/
def trainLoop (step : TrainState → TrainState) (halt : HaltCondition) :
    ℕ → ℕ → TrainState → Option (ℕ × TrainState)
  | 0, _, _ => none
  | fuel + 1, epochs, st =>
      if 0 < epochs ∧ haltMet halt epochs st.err then some (epochs, st)
      else trainLoop step halt fuel (epochs + 1) (step st)

/-- single-threaded training, `NN::train_incremental`: run the epoch loop
from a zero-filled previous-delta tracker and a zero error, returning the
final accumulated training error and the updated network. -/
def NN.train_incremental (net : NN) (examples : List (List ℝ × List ℝ))
    (rate momentum : ℝ) (halt : HaltCondition) (fuel : ℕ) : Option (ℝ × NN) :=
  (trainLoop (incEpochStep examples rate momentum) halt fuel 0
      ⟨net.layers, make_weights_tracker net.layers 0, 0⟩).map
    (fun r => (r.2.err, ⟨r.2.layers, net.num_inputs⟩))

/-- multi-threaded training, `NN::train_chunk`.  `num_threads` only sizes
the worker pool; every chunk's results are combined before any update is
applied, and the fold inside `chunkEpochStep` is the single-thread
combination order. -/
def NN.train_chunk (net : NN) (examples : List (List ℝ × List ℝ))
    (rate momentum : ℝ) (halt : HaltCondition) (_num_threads : ℕ)
    (chunk_size : ℕ) (fuel : ℕ) : Option (ℝ × NN) :=
  (trainLoop (chunkEpochStep examples rate momentum chunk_size) halt fuel 0
      ⟨net.layers, make_weights_tracker net.layers 0, 0⟩).map
    (fun r => (r.2.err, ⟨r.2.layers, net.num_inputs⟩))

/-- learning modes, `enum LearningMode`. -/
inductive LearningMode where
  | Incremental
  | Chunk
deriving DecidableEq

/-- default learning rate, `DEFAULT_LEARNING_RATE`. -/
def DEFAULT_LEARNING_RATE : ℝ := 0.3

/-- default momentum, `DEFAULT_MOMENTUM`. -/
def DEFAULT_MOMENTUM : ℝ := 0

/-- default epoch count, `DEFAULT_EPOCHS`. -/
def DEFAULT_EPOCHS : ℕ := 1000

/-- default chunk size, `DEFAULT_CHUNK_SIZE`. -/
def DEFAULT_CHUNK_SIZE : ℕ := 10

/-- training-configuration builder, `struct Trainer`.  The source holds a
mutable borrow of the network; here the network is passed to the dispatching
function explicitly, so the struct carries only the examples and the
hyperparameters. -/
structure Trainer where
  examples : List (List ℝ × List ℝ)
  rate : ℝ
  momentum : ℝ
  log_interval : Option ℕ
  halt_condition : HaltCondition
  learning_mode : LearningMode
  num_threads : ℕ
  chunk_size : ℕ

/-- rate setter, `Trainer::rate`: asserts the rate is positive. -/
def Trainer.set_rate (t : Trainer) (rate : ℝ) : Option Trainer :=
  if 0 < rate then some { t with rate := rate } else none

/-- momentum setter, `Trainer::momentum`: asserts the momentum is positive. -/
def Trainer.set_momentum (t : Trainer) (momentum : ℝ) : Option Trainer :=
  if 0 < momentum then some { t with momentum := momentum } else none

/-- log-interval setter, `Trainer::log_interval`: a present interval must be
at least 1. -/
def Trainer.set_log_interval (t : Trainer) (log_interval : Option ℕ) : Option Trainer :=
  match log_interval with
  | some interval => if interval < 1 then none else some { t with log_interval := log_interval }
  | none => some { t with log_interval := none }

/-- halt-condition setter, `Trainer::halt_condition`: a positive epoch count
and a positive target error are asserted; the timer variant is unchecked. -/
def Trainer.set_halt_condition (t : Trainer) (halt_condition : HaltCondition) : Option Trainer :=
  match halt_condition with
  | .Epochs epochs => if 0 < epochs then some { t with halt_condition := halt_condition } else none
  | .MSE mse => if 0 < mse then some { t with halt_condition := halt_condition } else none
  | .Timer _ => some { t with halt_condition := halt_condition }

/-- learning-mode setter, `Trainer::learning_mode`: no validation. -/
def Trainer.set_learning_mode (t : Trainer) (learning_mode : LearningMode) : Trainer :=
  { t with learning_mode := learning_mode }

/-- thread-count setter, `Trainer::num_threads`: no validation. -/
def Trainer.set_num_threads (t : Trainer) (num_threads : ℕ) : Trainer :=
  { t with num_threads := num_threads }

/-- chunk-size setter, `Trainer::chunk_size`: no validation. -/
def Trainer.set_chunk_size (t : Trainer) (chunk_size : ℕ) : Trainer :=
  { t with chunk_size := chunk_size }

/-- builder entry point, `NN::train`: a trainer over the given examples with
every hyperparameter at its default. -/
def NN.train (_net : NN) (examples : List (List ℝ × List ℝ)) : Trainer :=
  { examples := examples
    rate := DEFAULT_LEARNING_RATE
    momentum := DEFAULT_MOMENTUM
    log_interval := none
    halt_condition := .Epochs DEFAULT_EPOCHS
    learning_mode := .Incremental
    num_threads := 1
    chunk_size := DEFAULT_CHUNK_SIZE }

/-- dispatch with validation, `NN::train_details`: every example's input and
target lengths must match the network's input- and output-layer sizes, and
incremental mode requires a single thread; violations panic (`none`). -/
def NN.train_details (net : NN) (examples : List (List ℝ × List ℝ))
    (rate momentum : ℝ) (halt : HaltCondition) (num_threads : ℕ)
    (learning_mode : LearningMode) (chunk_size : ℕ) (fuel : ℕ) : Option (ℝ × NN) :=
  if ∀ ex ∈ examples,
      ex.1.length = net.num_inputs ∧ ex.2.length = (net.layers.getLastD []).length then
    match learning_mode with
    | .Incremental =>
        if num_threads = 1 then net.train_incremental examples rate momentum halt fuel
        else none
    | .Chunk => net.train_chunk examples rate momentum halt num_threads chunk_size fuel
  else none

/-- one node's random initial weights, the innermost loop of `NN::new`:
`prev_layer_size + 1` successive draws from the generator stream starting
at position `start`. -/
def mkNode (rng : ℕ → ℝ) (start weight_count : ℕ) : List ℝ :=
  (List.range weight_count).map (fun w => rng (start + w))

/-- the layer-building loop of `NN::new`: for each remaining size, a layer
of that many nodes, each with `prev_layer_size + 1` weights drawn in order
from the stream (`c` counts the draws consumed so far). -/
def mkLayers (rng : ℕ → ℝ) : ℕ → ℕ → List ℕ → List (List (List ℝ))
  | _, _, [] => []
  | c, prev_layer_size, layer_size :: rest =>
      (List.range layer_size).map
          (fun n => mkNode rng (c + n * (prev_layer_size + 1)) (prev_layer_size + 1)) ::
        mkLayers rng (c + layer_size * (prev_layer_size + 1)) layer_size rest

/-- construction, `NN::new`: asserts at least two layer sizes and no empty
layer, then builds one stored layer per size after the first, with the
first size kept as the input-layer size.  Randomness is the explicit
stream `rng` of values drawn by `gen_range(-0.5, 0.5)`. -/
def NN.new (rng : ℕ → ℝ) (layers_sizes : List ℕ) : Option NN :=
  if layers_sizes.length < 2 then none
  else if layers_sizes.contains 0 then none
  else
    match layers_sizes with
    | [] => none
    | first_layer_size :: rest => some ⟨mkLayers rng 0 first_layer_size rest, first_layer_size⟩

/-- JSON values, the subset of `rustc_serialize::json::Json` this library
produces: unsigned integers (for `num_inputs : u32`), floating-point
numbers (for weights), arrays and objects. -/
inductive Json where
  | U64 : ℕ → Json
  | F64 : ℝ → Json
  | Arr : List Json → Json
  | Obj : List (String × Json) → Json

/-- encoding of one node's weight list as a JSON array of numbers. -/
def encodeNode (node : List ℝ) : Json := .Arr (node.map .F64)

/-- encoding of one layer as a JSON array of node arrays. -/
def encodeLayer (layer : List (List ℝ)) : Json := .Arr (layer.map encodeNode)

/-- textual encoding, `NN::to_json` via the derived `RustcEncodable`: an
object with the struct's fields in declaration order.  The embedding stops
at the JSON value; rendering that value to a string is the external
encoder's concern. -/
def NN.to_json (net : NN) : Json :=
  .Obj [("layers", .Arr (net.layers.map encodeLayer)),
        ("num_inputs", .U64 net.num_inputs)]

/-- decoding of a weight list from JSON array elements. -/
def decodeWeights : List Json → Option (List ℝ)
  | [] => some []
  | .F64 x :: rest => (decodeWeights rest).map (fun ws => x :: ws)
  | _ => none

/-- decoding of one node from a JSON value. -/
def decodeNode : Json → Option (List ℝ)
  | .Arr l => decodeWeights l
  | _ => none

/-- decoding of a layer's node list from JSON array elements. -/
def decodeNodes : List Json → Option (List (List ℝ))
  | [] => some []
  | j :: rest => do
      let node ← decodeNode j
      let nodes ← decodeNodes rest
      pure (node :: nodes)

/-- decoding of one layer from a JSON value. -/
def decodeLayer : Json → Option (List (List ℝ))
  | .Arr l => decodeNodes l
  | _ => none

/-- decoding of the layer list from JSON array elements. -/
def decodeLayers : List Json → Option (List (List (List ℝ)))
  | [] => some []
  | j :: rest => do
      let layer ← decodeLayer j
      let layers ← decodeLayers rest
      pure (layer :: layers)

/-- textual decoding, `NN::from_json` via the derived `RustcDecodable`:
reads the two struct fields by name from the object; any malformed input
panics (`none`). -/
def NN.from_json (j : Json) : Option NN :=
  match j with
  | .Obj fields => do
      let layersJson ← fields.lookup "layers"
      let inputsJson ← fields.lookup "num_inputs"
      let layers ←
        match layersJson with
        | .Arr l => decodeLayers l
        | _ => none
      let num_inputs ←
        match inputsJson with
        | .U64 n => some n
        | _ => none
      pure ⟨layers, num_inputs⟩
  | _ => none

/-- specification-side device for the incremental epoch: the list of
per-example mean-squared errors, each taken against the weights current at
the moment that example is processed (the spec describes the epoch error as
the plain sum of these; compare the accumulator inside `incEpochStep`). -/
def perExampleErrors (rate momentum : ℝ) :
    List (List (List ℝ)) → List (List (List ℝ)) → List (List ℝ × List ℝ) → List ℝ
  | _, _, [] => []
  | layers, prev, ex :: rest =>
      let results := do_run layers ex.1
      let weight_updates := calculate_weight_updates layers results ex.2
      let lp := update_weights layers weight_updates prev rate momentum
      calculate_error results ex.2 :: perExampleErrors rate momentum lp.1 lp.2 rest

/-- the layer/node/weight shape of a weight structure: one length per node,
grouped by layer.  Two structures have the same shape exactly when their
shapes are equal. -/
def shape3 (w : List (List (List ℝ))) : List (List ℕ) :=
  w.map (fun layer => layer.map List.length)

/-- well-formedness of a layer list against a previous-layer size: every
node holds one threshold weight plus one weight per previous-layer output
(the construction invariant of §3 of the data model, established by
`NN::new`). -/
def WellFormedFrom : ℕ → List (List (List ℝ)) → Prop
  | _, [] => True
  | prev_size, layer :: rest =>
      (∀ node ∈ layer, node.length = prev_size + 1) ∧ WellFormedFrom layer.length rest

/-- well-formedness of a network: its layers are well-formed against the
input-layer size. -/
def NN.WellFormed (net : NN) : Prop :=
  WellFormedFrom net.num_inputs net.layers

/-- concrete one-input, one-output-node network used to evaluate theorems
on closed inputs. -/
def net1 : NN := ⟨[[[0, 0]]], 1⟩

/-- concrete one-input network with one hidden layer and one output node,
used to evaluate theorems on closed inputs. -/
def net2 : NN := ⟨[[[0, 0]], [[0, 0]]], 1⟩

/-- concrete two-example training set (both examples map input [0] to
target [0]), used to evaluate theorems on closed inputs. -/
def exs0 : List (List ℝ × List ℝ) := [([0], [0]), ([0], [0])]

/-- concrete default trainer over an empty example list, used to evaluate
theorems on closed inputs. -/
def trainer0 : Trainer := net1.train []

/-! Theorems.  Claim theorems are named `*_spec`, `*_counterexample` or
`*_witness`; the remaining theorems are supporting lemmas. -/

/-- C7: the momentum setter rejects (panics on) every value ≤ 0, including
0 itself, and stores every positive value; yet the builder's default
momentum is exactly 0, assigned directly by `NN::train` without passing
through the setter — indeed the setter would reject the default. -/
theorem momentum_setter_spec (t : Trainer) (m : ℝ) :
    (m ≤ 0 → t.set_momentum m = none) ∧
    (0 < m → t.set_momentum m = some { t with momentum := m }) ∧
    (∀ (net : NN) (examples : List (List ℝ × List ℝ)),
      (net.train examples).momentum = 0 ∧
      (net.train examples).set_momentum (net.train examples).momentum = none) := by
  refine ⟨fun h => ?_, fun h => ?_, fun net examples => ⟨rfl, ?_⟩⟩
  · simp [Trainer.set_momentum, not_lt.mpr h]
  · simp [Trainer.set_momentum, h]
  · simp [Trainer.set_momentum, NN.train, DEFAULT_MOMENTUM]

/-- witness for C7 at a concrete trainer and concrete momentum values. -/
theorem momentum_setter_spec_witness :
    ((-1 : ℝ) ≤ 0 ∧ trainer0.set_momentum (-1) = none) ∧
    ((0 : ℝ) < 1 ∧ trainer0.set_momentum 1 = some { trainer0 with momentum := 1 }) :=
  ⟨⟨by norm_num, (momentum_setter_spec trainer0 (-1)).1 (by norm_num)⟩,
   ⟨by norm_num, (momentum_setter_spec trainer0 1).2.1 (by norm_num)⟩⟩

theorem decodeWeights_encode (node : List ℝ) :
    decodeWeights (node.map Json.F64) = some node := by
  induction node with
  | nil => rfl
  | cons x xs ih => simp [decodeWeights, ih]

theorem decodeNode_encode (node : List ℝ) : decodeNode (encodeNode node) = some node := by
  simp [decodeNode, encodeNode, decodeWeights_encode]

theorem decodeNodes_encode (layer : List (List ℝ)) :
    decodeNodes (layer.map encodeNode) = some layer := by
  induction layer with
  | nil => rfl
  | cons n ns ih => simp [decodeNodes, decodeNode_encode, ih]

theorem decodeLayer_encode (layer : List (List ℝ)) :
    decodeLayer (encodeLayer layer) = some layer := by
  simp [decodeLayer, encodeLayer, decodeNodes_encode]

theorem decodeLayers_encode (layers : List (List (List ℝ))) :
    decodeLayers (layers.map encodeLayer) = some layers := by
  induction layers with
  | nil => rfl
  | cons l ls ih => simp [decodeLayers, decodeLayer_encode, ih]

/-- C9: decoding the JSON encoding of any network reproduces the network —
the same layer/node/weight nesting, the same weight values and the same
input-layer size. -/
theorem json_round_trip_spec (net : NN) : NN.from_json (NN.to_json net) = some net := by
  simp [NN.from_json, NN.to_json, List.lookup, decodeLayers_encode]

theorem mkLayers_length (rng : ℕ → ℝ) (c prev : ℕ) (sizes : List ℕ) :
    (mkLayers rng c prev sizes).length = sizes.length := by
  induction sizes generalizing c prev with
  | nil => rfl
  | cons s rest ih => simp [mkLayers, ih]

theorem mkNode_length (rng : ℕ → ℝ) (start count : ℕ) : (mkNode rng start count).length = count := by
  simp [mkNode]

theorem mkLayers_node_length (rng : ℕ → ℝ) (sizes : List ℕ) :
    ∀ (c prev i : ℕ), ∀ node ∈ (mkLayers rng c prev sizes).getD i [],
      node.length = (prev :: sizes).getD i 0 + 1 := by
  induction sizes with
  | nil => intro c prev i node h; cases i <;> simp [mkLayers] at h
  | cons s rest ih =>
    intro c prev i node h
    cases i with
    | zero =>
      simp [mkLayers] at h
      obtain ⟨n, _, rfl⟩ := h
      simp [mkNode_length]
    | succ i =>
      simp only [mkLayers, List.getD_cons_succ] at h
      simpa using ih _ s i node h

theorem mkLayers_weight_mem (rng : ℕ → ℝ) (sizes : List ℕ) :
    ∀ (c prev : ℕ), ∀ layer ∈ mkLayers rng c prev sizes, ∀ node ∈ layer, ∀ w ∈ node,
      ∃ n, w = rng n := by
  induction sizes with
  | nil => intro c prev layer h; simp [mkLayers] at h
  | cons s rest ih =>
    intro c prev layer h node hn w hw
    simp only [mkLayers, List.mem_cons] at h
    rcases h with h | h
    · subst h
      simp only [List.mem_map] at hn
      obtain ⟨n, _, rfl⟩ := hn
      simp only [mkNode, List.mem_map] at hw
      obtain ⟨k, _, rfl⟩ := hw
      exact ⟨_, rfl⟩
    · exact ih _ s layer h node hn w hw

/-- C6: construction panics for fewer than two layer sizes or any zero
size; for at least two positive sizes it succeeds, the stored layer count
is the size count minus one, every node of stored layer k carries (size of
layer k)+1 weights (the preceding layer's size plus the threshold weight),
and — the generator drawing uniformly from [-0.5, 0.5) — every weight lies
in [-0.5, 0.5). -/
theorem new_spec (rng : ℕ → ℝ) (hrng : ∀ n, -0.5 ≤ rng n ∧ rng n < 0.5)
    (layers_sizes : List ℕ) :
    (layers_sizes.length < 2 → NN.new rng layers_sizes = none) ∧
    (0 ∈ layers_sizes → NN.new rng layers_sizes = none) ∧
    (2 ≤ layers_sizes.length → 0 ∉ layers_sizes →
      ∃ net, NN.new rng layers_sizes = some net ∧
        net.layers.length = layers_sizes.length - 1 ∧
        (∀ i, ∀ node ∈ net.layers.getD i [], node.length = layers_sizes.getD i 0 + 1) ∧
        (∀ layer ∈ net.layers, ∀ node ∈ layer, ∀ w ∈ node, -0.5 ≤ w ∧ w < 0.5)) := by
  refine ⟨fun h => ?_, fun h => ?_, fun h2 h0 => ?_⟩
  · simp [NN.new, h]
  · have hc : layers_sizes.contains 0 = true := List.elem_eq_true_of_mem h
    by_cases hl : layers_sizes.length < 2
    · simp [NN.new, hl]
    · simp only [NN.new, if_neg hl, if_pos hc]
  · match layers_sizes, h2 with
    | first :: rest, _ =>
      have hlen : ¬ (first :: rest).length < 2 := by omega
      have hcon : ¬ ((first :: rest).contains 0 = true) := fun hc =>
        h0 (List.mem_of_elem_eq_true hc)
      refine ⟨⟨mkLayers rng 0 first rest, first⟩, ?_, ?_, ?_, ?_⟩
      · simp only [NN.new, if_neg hlen, if_neg hcon]
      · simp [mkLayers_length]
      · intro i node hn
        simpa using mkLayers_node_length rng rest 0 first i node hn
      · intro layer hl node hn w hw
        obtain ⟨n, rfl⟩ := mkLayers_weight_mem rng rest 0 first layer hl node hn w hw
        exact hrng n

theorem sigmoid_pos (y : ℝ) : 0 < sigmoid y := by
  have h := Real.exp_pos (-y)
  rw [sigmoid]
  positivity

theorem sigmoid_lt_one (y : ℝ) : sigmoid y < 1 := by
  have h := Real.exp_pos (-y)
  rw [sigmoid, div_lt_one (by linarith)]
  linarith

theorem runLayers_ne_nil (layers : List (List (List ℝ))) (prev : List ℝ)
    (h : layers ≠ []) : runLayers layers prev ≠ [] := by
  cases layers with
  | nil => exact absurd rfl h
  | cons l ls => simp [runLayers]

theorem getLastD_congr {α : Type _} (l : List α) (a b : α) (h : l ≠ []) :
    l.getLastD a = l.getLastD b := by
  induction l generalizing a b with
  | nil => exact absurd rfl h
  | cons x xs ih =>
    cases xs with
    | nil => rfl
    | cons y ys => simp only [List.getLastD_cons]

theorem runLayers_getLastD (layers : List (List (List ℝ))) :
    ∀ prev, layers ≠ [] →
      ∃ p, (runLayers layers prev).getLastD [] =
        (layers.getLastD []).map (fun node => sigmoid (modified_dotprod node p)) := by
  induction layers with
  | nil => intro prev h; exact absurd rfl h
  | cons l ls ih =>
    intro prev _
    cases ls with
    | nil => exact ⟨prev, by simp [runLayers]⟩
    | cons l2 ls2 =>
      obtain ⟨p, hp⟩ := ih (l.map fun node => sigmoid (modified_dotprod node prev)) (by simp)
      refine ⟨p, ?_⟩
      have h1 : runLayers (l :: l2 :: ls2) prev =
          (l.map fun node => sigmoid (modified_dotprod node prev)) ::
            runLayers (l2 :: ls2) (l.map fun node => sigmoid (modified_dotprod node prev)) := by
        simp [runLayers]
      have hR : (l :: l2 :: ls2).getLastD ([] : List (List ℝ)) = (l2 :: ls2).getLastD [] := by
        rw [List.getLastD_cons]
        exact getLastD_congr _ _ _ (by simp)
      rw [hR, h1, List.getLastD_cons,
          getLastD_congr _ _ [] (runLayers_ne_nil _ _ (by simp)), hp]

/-- C5: `run` panics (here: returns `none`) when the input length differs
from the input-layer size; on a correctly sized input it returns the final
layer's result vector of the forward pass, whose length is the output-layer
size and whose every value lies in the open interval (0, 1).  The embedding
is purely functional, so the network itself is untouched. -/
theorem run_spec (net : NN) (inputs : List ℝ) :
    (inputs.length ≠ net.num_inputs → net.run inputs = none) ∧
    (inputs.length = net.num_inputs → net.layers ≠ [] →
      ∃ out, net.run inputs = some out ∧
        out.length = (net.layers.getLastD []).length ∧
        ∀ x ∈ out, 0 < x ∧ x < 1) := by
  refine ⟨fun h => ?_, fun h hne => ?_⟩
  · simp [NN.run, h]
  · obtain ⟨p, hp⟩ := runLayers_getLastD net.layers inputs hne
    have hlast : (do_run net.layers inputs).getLastD [] =
        (net.layers.getLastD []).map (fun node => sigmoid (modified_dotprod node p)) := by
      rw [do_run, List.getLastD_cons,
          getLastD_congr _ _ [] (runLayers_ne_nil _ _ hne), hp]
    refine ⟨(do_run net.layers inputs).getLastD [], by simp [NN.run, h], ?_, ?_⟩
    · rw [hlast]; simp
    · intro x hx
      rw [hlast] at hx
      simp only [List.mem_map] at hx
      obtain ⟨node, _, rfl⟩ := hx
      exact ⟨sigmoid_pos _, sigmoid_lt_one _⟩

/-- witness for C5 at a concrete network, a wrongly sized input and a
correctly sized one. -/
theorem run_spec_witness :
    (([0, 0] : List ℝ).length ≠ net1.num_inputs ∧ net1.run [0, 0] = none) ∧
    (([0] : List ℝ).length = net1.num_inputs ∧ net1.layers ≠ [] ∧
      ∃ out, net1.run [0] = some out ∧
        out.length = (net1.layers.getLastD []).length ∧
        ∀ x ∈ out, 0 < x ∧ x < 1) :=
  ⟨⟨by simp [net1], (run_spec net1 [0, 0]).1 (by simp [net1])⟩,
   ⟨by simp [net1], by simp [net1],
    (run_spec net1 [0]).2 (by simp [net1]) (by simp [net1])⟩⟩

theorem updateNode_getD (rate momentum : ℝ) :
    ∀ (w u p : List ℝ), u.length = w.length → p.length = w.length →
      ∀ k, k < w.length →
        ((updateNode rate momentum w u p).1.getD k 0
            = w.getD k 0 + (rate * u.getD k 0 + momentum * p.getD k 0)) ∧
        ((updateNode rate momentum w u p).2.getD k 0
            = rate * u.getD k 0 + momentum * p.getD k 0)
  | [], _, _, _, _, k, hk => by simp at hk
  | _ :: _, [], _, hu, _, _, _ => by simp at hu
  | _ :: _, _ :: _, [], _, hp, _, _ => by simp at hp
  | a :: as, b :: bs, c :: cs, hu, hp, k, hk => by
      cases k with
      | zero => simp [updateNode]
      | succ k =>
        simp only [updateNode, List.getD_cons_succ]
        exact updateNode_getD rate momentum as bs cs (by simpa using hu) (by simpa using hp)
          k (by simpa using hk)

theorem updateLayer_getD (rate momentum : ℝ) :
    ∀ (l u p : List (List ℝ)),
      u.map List.length = l.map List.length → p.map List.length = l.map List.length →
      ∀ j, j < l.length → ∀ k, k < (l.getD j []).length →
        (((updateLayer rate momentum l u p).1.getD j []).getD k 0
            = (l.getD j []).getD k 0
              + (rate * (u.getD j []).getD k 0 + momentum * (p.getD j []).getD k 0)) ∧
        (((updateLayer rate momentum l u p).2.getD j []).getD k 0
            = rate * (u.getD j []).getD k 0 + momentum * (p.getD j []).getD k 0)
  | [], _, _, _, _, j, hj, _, _ => by simp at hj
  | _ :: _, [], _, hu, _, _, _, _, _ => by simp at hu
  | _ :: _, _ :: _, [], _, hp, _, _, _, _ => by simp at hp
  | a :: as, b :: bs, c :: cs, hu, hp, j, hj, k, hk => by
      simp only [List.map_cons, List.cons.injEq] at hu hp
      cases j with
      | zero =>
        simp only [updateLayer, List.getD_cons_zero] at hk ⊢
        exact updateNode_getD rate momentum a b c hu.1 hp.1 k hk
      | succ j =>
        simp only [updateLayer, List.getD_cons_succ] at hk ⊢
        exact updateLayer_getD rate momentum as bs cs hu.2 hp.2 j (by simpa using hj) k hk

/-- C3: applying a weight-update structure increments every weight by
exactly delta = rate·update + momentum·previous delta, and overwrites the
previous-delta tracker entry with that delta. -/
theorem update_weights_spec (layers network_weight_updates prev_deltas : List (List (List ℝ)))
    (rate momentum : ℝ)
    (hu : shape3 network_weight_updates = shape3 layers)
    (hp : shape3 prev_deltas = shape3 layers) :
    ∀ i, i < layers.length → ∀ j, j < (layers.getD i []).length →
      ∀ k, k < ((layers.getD i []).getD j []).length →
        ((((update_weights layers network_weight_updates prev_deltas rate momentum).1.getD
              i []).getD j []).getD k 0
          = (((layers.getD i []).getD j []).getD k 0)
            + (rate * (((network_weight_updates.getD i []).getD j []).getD k 0)
               + momentum * (((prev_deltas.getD i []).getD j []).getD k 0))) ∧
        ((((update_weights layers network_weight_updates prev_deltas rate momentum).2.getD
              i []).getD j []).getD k 0
          = rate * (((network_weight_updates.getD i []).getD j []).getD k 0)
            + momentum * (((prev_deltas.getD i []).getD j []).getD k 0)) := by
  induction layers generalizing network_weight_updates prev_deltas with
  | nil => intro i hi; simp at hi
  | cons l ls ih =>
    cases network_weight_updates with
    | nil => simp [shape3] at hu
    | cons u us =>
      cases prev_deltas with
      | nil => simp [shape3] at hp
      | cons p ps =>
        simp only [shape3, List.map_cons, List.cons.injEq] at hu hp
        intro i hi j hj k hk
        cases i with
        | zero =>
          simp only [update_weights, List.getD_cons_zero] at hj hk ⊢
          exact updateLayer_getD rate momentum l u p hu.1 hp.1 j hj k hk
        | succ i =>
          simp only [update_weights, List.getD_cons_succ] at hj hk ⊢
          exact ih us ps hu.2 hp.2 i (by simpa using hi) j hj k hk

/-- witness for C3 at a concrete one-weight network and concrete
hyperparameters. -/
theorem update_weights_spec_witness :
    shape3 [[[3, 4]]] = shape3 [[[1, 2]]] ∧ shape3 [[[5, 6]]] = shape3 [[[1, 2]]] ∧
    ((((update_weights [[[1, 2]]] [[[3, 4]]] [[[5, 6]]] 2 3).1.getD 0 []).getD 0 []).getD 1 0
        = (((([[[1, 2]]] : List (List (List ℝ))).getD 0 []).getD 0 []).getD 1 0)
          + (2 * (((([[[3, 4]]] : List (List (List ℝ))).getD 0 []).getD 0 []).getD 1 0)
             + 3 * (((([[[5, 6]]] : List (List (List ℝ))).getD 0 []).getD 0 []).getD 1 0))) ∧
    ((((update_weights [[[1, 2]]] [[[3, 4]]] [[[5, 6]]] 2 3).2.getD 0 []).getD 0 []).getD 1 0
        = 2 * (((([[[3, 4]]] : List (List (List ℝ))).getD 0 []).getD 0 []).getD 1 0)
          + 3 * (((([[[5, 6]]] : List (List (List ℝ))).getD 0 []).getD 0 []).getD 1 0)) := by
  have h := update_weights_spec [[[1, 2]]] [[[3, 4]]] [[[5, 6]]] 2 3
    (by simp [shape3]) (by simp [shape3]) 0 (by simp) 0 (by simp) 1 (by simp)
  exact ⟨by simp [shape3], by simp [shape3], h.1, h.2⟩

theorem trainLoop_epochs_le (step : TrainState → TrainState) (halt : HaltCondition) :
    ∀ (fuel e : ℕ) (st : TrainState) (n : ℕ) (st' : TrainState),
      trainLoop step halt fuel e st = some (n, st') → e ≤ n := by
  intro fuel
  induction fuel with
  | zero => intro e st n st' h; simp [trainLoop] at h
  | succ fuel ih =>
    intro e st n st' h
    rw [trainLoop] at h
    by_cases hc : 0 < e ∧ haltMet halt e st.err
    · rw [if_pos hc] at h
      simp only [Option.some.injEq, Prod.mk.injEq] at h
      omega
    · rw [if_neg hc] at h
      have := ih (e + 1) (step st) n st' h
      omega

theorem trainLoop_first_step (step : TrainState → TrainState) (halt : HaltCondition)
    (fuel : ℕ) (st : TrainState) :
    trainLoop step halt (fuel + 1) 0 st = trainLoop step halt fuel 1 (step st) := by
  rw [trainLoop, if_neg]
  rintro ⟨h, -⟩
  omega

theorem trainLoop_min_one_epoch (step : TrainState → TrainState) (halt : HaltCondition)
    (fuel : ℕ) (st : TrainState) (n : ℕ) (st' : TrainState)
    (h : trainLoop step halt fuel 0 st = some (n, st')) : 1 ≤ n := by
  cases fuel with
  | zero => simp [trainLoop] at h
  | succ fuel =>
    rw [trainLoop_first_step] at h
    exact trainLoop_epochs_le step halt fuel 1 (step st) n st' h

theorem trainLoop_Epochs (step : TrainState → TrainState) :
    ∀ (m e : ℕ) (st : TrainState), 0 < e →
      trainLoop step (.Epochs (e + m)) (m + 1) e st = some (e + m, step^[m] st) := by
  intro m
  induction m with
  | zero =>
    intro e st he
    rw [trainLoop, if_pos ⟨he, by simp [haltMet]⟩]
    simp
  | succ m ih =>
    intro e st he
    rw [trainLoop, if_neg ?_]
    · have h := ih (e + 1) (step st) (by omega)
      rw [show e + 1 + m = e + (m + 1) by omega] at h
      rw [h, Function.iterate_succ_apply]
    · rintro ⟨-, hmet⟩
      simp only [haltMet] at hmet
      omega

theorem trainLoop_Epochs_from_zero (step : TrainState → TrainState) (N : ℕ)
    (st : TrainState) (hN : 0 < N) :
    trainLoop step (.Epochs N) (N + 1) 0 st = some (N, step^[N] st) := by
  have h := trainLoop_Epochs step (N - 1) 1 (step st) (by omega)
  rw [show 1 + (N - 1) = N by omega, show N - 1 + 1 = N by omega] at h
  rw [trainLoop_first_step, h, ← Function.iterate_succ_apply]
  simp [Nat.succ_eq_add_one, Nat.sub_add_cancel hN]

/-- C4: in the shared epoch loop of both training strategies, the halt
check is skipped while the epoch counter is zero — every halt condition
(epoch count, target error or timer) sees at least one full pass over the
examples — and with halt condition Epochs(N), N > 0, the loop performs
exactly N full passes (N applications of the epoch body) regardless of the
error trend.  `step` ranges over arbitrary epoch bodies, so this covers
`incEpochStep` and `chunkEpochStep` alike. -/
theorem halting_spec :
    (∀ (step : TrainState → TrainState) (halt : HaltCondition) (fuel : ℕ)
        (st : TrainState) (n : ℕ) (st' : TrainState),
        trainLoop step halt fuel 0 st = some (n, st') → 1 ≤ n) ∧
    (∀ (step : TrainState → TrainState) (N : ℕ) (st : TrainState), 0 < N →
        trainLoop step (.Epochs N) (N + 1) 0 st = some (N, step^[N] st)) :=
  ⟨trainLoop_min_one_epoch, trainLoop_Epochs_from_zero⟩

/-- witness for C4: the loop for two epochs over a concrete network and a
concrete epoch body. -/
theorem halting_spec_witness :
    (0 < 2 ∧
      trainLoop (incEpochStep exs0 1 1) (.Epochs 2) 3 0
          ⟨net1.layers, make_weights_tracker net1.layers 0, 0⟩
        = some (2, (incEpochStep exs0 1 1)^[2]
            ⟨net1.layers, make_weights_tracker net1.layers 0, 0⟩)) ∧ 1 ≤ 2 := by
  have h2 := halting_spec.2 (incEpochStep exs0 1 1) 2
    ⟨net1.layers, make_weights_tracker net1.layers 0, 0⟩ (by norm_num)
  exact ⟨⟨by norm_num, h2⟩,
    halting_spec.1 (incEpochStep exs0 1 1) (.Epochs 2) 3 _ 2 _ h2⟩

theorem incFold_err (rate momentum : ℝ) :
    ∀ (exs : List (List ℝ × List ℝ)) (l p : List (List (List ℝ))) (e0 : ℝ),
      (exs.foldl (incExampleStep rate momentum) ⟨l, p, e0⟩).err
        = e0 + (perExampleErrors rate momentum l p exs).sum := by
  intro exs
  induction exs with
  | nil => intro l p e0; simp [perExampleErrors]
  | cons ex rest ih =>
    intro l p e0
    rw [List.foldl_cons,
        show incExampleStep rate momentum ⟨l, p, e0⟩ ex =
          ⟨(update_weights l (calculate_weight_updates l (do_run l ex.1) ex.2) p rate momentum).1,
           (update_weights l (calculate_weight_updates l (do_run l ex.1) ex.2) p rate momentum).2,
           e0 + calculate_error (do_run l ex.1) ex.2⟩ from rfl,
        ih]
    simp only [perExampleErrors, List.sum_cons]
    ring

theorem sqDiffSum_eq_sum (rs : List ℝ) :
    ∀ ts : List ℝ, rs.length ≤ ts.length →
      sqDiffSum rs ts = ∑ j in Finset.range rs.length, (ts.getD j 0 - rs.getD j 0) ^ 2 := by
  induction rs with
  | nil => intro ts h; simp [sqDiffSum]
  | cons r rs ih =>
    intro ts h
    cases ts with
    | nil => simp at h
    | cons t ts =>
      rw [show sqDiffSum (r :: rs) (t :: ts) = (t - r) ^ 2 + sqDiffSum rs ts from rfl,
          List.length_cons, Finset.sum_range_succ']
      simp only [List.getD_cons_succ, List.getD_cons_zero]
      rw [ih ts (by simpa using h)]
      ring

/-- C8: a training call returns the final epoch's accumulated error; within
an epoch that accumulator is the plain sum — not divided by the example
count — of the per-example mean-squared errors, and each example's
mean-squared error is the sum of squared target-minus-result differences
divided by the number of output nodes.  The last conjunct shows the
Epochs(N) training call returning exactly the error of the N-th (final)
epoch, the epoch that triggers the halt. -/
theorem train_error_spec :
    (∀ (examples : List (List ℝ × List ℝ)) (rate momentum : ℝ) (st : TrainState),
        (incEpochStep examples rate momentum st).err
          = (perExampleErrors rate momentum st.layers st.prevDeltas examples).sum) ∧
    (∀ (results : List (List ℝ)) (targets : List ℝ),
        (results.getLastD []).length ≤ targets.length →
        calculate_error results targets
          = (∑ j in Finset.range (results.getLastD []).length,
              (targets.getD j 0 - (results.getLastD []).getD j 0) ^ 2)
            / ((results.getLastD []).length : ℝ)) ∧
    (∀ (net : NN) (examples : List (List ℝ × List ℝ)) (rate momentum : ℝ) (N : ℕ), 0 < N →
        net.train_incremental examples rate momentum (.Epochs N) (N + 1)
          = some ((((incEpochStep examples rate momentum)^[N])
                ⟨net.layers, make_weights_tracker net.layers 0, 0⟩).err,
              ⟨(((incEpochStep examples rate momentum)^[N])
                ⟨net.layers, make_weights_tracker net.layers 0, 0⟩).layers, net.num_inputs⟩)) := by
  refine ⟨fun examples rate momentum st => ?_, fun results targets h => ?_, fun net examples rate momentum N hN => ?_⟩
  · simp only [incEpochStep]
    rw [incFold_err]
    exact zero_add _
  · rw [calculate_error, sqDiffSum_eq_sum _ _ h]
  · rw [NN.train_incremental, trainLoop_Epochs_from_zero _ _ _ hN]
    rfl

/-- witness for C8 at concrete results/targets and a concrete one-epoch
training call. -/
theorem train_error_spec_witness :
    ((([[1, 2]] : List (List ℝ)).getLastD []).length ≤ ([3, 4] : List ℝ).length ∧
      calculate_error [[1, 2]] [3, 4]
        = (∑ j in Finset.range (([[1, 2]] : List (List ℝ)).getLastD []).length,
            (([3, 4] : List ℝ).getD j 0 - (([[1, 2]] : List (List ℝ)).getLastD []).getD j 0) ^ 2)
          / ((([[1, 2]] : List (List ℝ)).getLastD []).length : ℝ)) ∧
    (0 < 1 ∧
      net1.train_incremental exs0 1 0 (.Epochs 1) 2
        = some ((((incEpochStep exs0 1 0)^[1])
              ⟨net1.layers, make_weights_tracker net1.layers 0, 0⟩).err,
            ⟨(((incEpochStep exs0 1 0)^[1])
              ⟨net1.layers, make_weights_tracker net1.layers 0, 0⟩).layers, net1.num_inputs⟩)) :=
  ⟨⟨by simp, train_error_spec.2.1 [[1, 2]] [3, 4] (by simp)⟩,
   ⟨by norm_num, train_error_spec.2.2 net1 exs0 1 0 1 (by norm_num)⟩⟩

theorem getLastD_map {α β : Type _} (f : α → β) (l : List α) (d : α) :
    (l.map f).getLastD (f d) = f (l.getLastD d) := by
  induction l generalizing d with
  | nil => rfl
  | cons a as ih => simp only [List.map_cons, List.getLastD_cons, ih a]

theorem shape3_length {a b : List (List (List ℝ))} (h : shape3 a = shape3 b) :
    a.length = b.length := by
  have := congrArg List.length h
  simpa [shape3] using this

theorem shape3_getLastD_length {a b : List (List (List ℝ))} (h : shape3 a = shape3 b) :
    (a.getLastD []).length = (b.getLastD []).length := by
  have ha := getLastD_map (fun layer => layer.map List.length) a []
  have hb := getLastD_map (fun layer => layer.map List.length) b []
  simp only [List.map_nil] at ha hb
  have : (shape3 a).getLastD [] = (shape3 b).getLastD [] := by rw [h]
  rw [shape3, shape3, ha, hb] at this
  have := congrArg List.length this
  simpa using this

theorem make_weights_tracker_shape (layers : List (List (List ℝ))) (ph : ℝ) :
    shape3 (make_weights_tracker layers ph) = shape3 layers := by
  simp [shape3, make_weights_tracker, List.map_map, Function.comp]

theorem runLayers_lengths (layers : List (List (List ℝ))) :
    ∀ prev, (runLayers layers prev).map List.length = layers.map List.length := by
  induction layers with
  | nil => intro prev; rfl
  | cons l ls ih => intro prev; simp [runLayers, ih]

theorem wellFormedFrom_congr : ∀ (n : ℕ) (a b : List (List (List ℝ))),
    shape3 a = shape3 b → WellFormedFrom n b → WellFormedFrom n a
  | _, [], [], _, _ => trivial
  | _, [], _ :: _, h, _ => by simp [shape3] at h
  | _, _ :: _, [], h, _ => by simp [shape3] at h
  | n, a :: as, b :: bs, h, hw => by
      simp only [shape3, List.map_cons, List.cons.injEq] at h
      simp only [WellFormedFrom] at hw ⊢
      refine ⟨?_, ?_⟩
      · intro node hn
        have hm : node.length ∈ a.map List.length := List.mem_map_of_mem _ hn
        rw [h.1] at hm
        obtain ⟨nd, hnd, hlen⟩ := List.mem_map.mp hm
        rw [← hlen]
        exact hw.1 nd hnd
      · have hlen : a.length = b.length := by
          have := congrArg List.length h.1
          simpa using this
        rw [hlen]
        exact wellFormedFrom_congr b.length as bs (by simpa [shape3] using h.2) hw.2

theorem outputLayerErrors_length : ∀ (nodes : List (List ℝ)) (rs ts : List ℝ),
    (outputLayerErrors nodes rs ts).length = min nodes.length (min rs.length ts.length)
  | [], rs, ts => by simp [outputLayerErrors]
  | _ :: _, [], ts => by simp [outputLayerErrors]
  | _ :: _, _ :: _, [] => by simp [outputLayerErrors]
  | n :: ns, r :: rs, t :: ts => by
      simp only [outputLayerErrors, List.length_cons,
        outputLayerErrors_length ns rs ts]
      omega

theorem hiddenLayerErrors_length (next_nodes : List (List ℝ)) (next_errors : List ℝ) :
    ∀ (nodes : List (List ℝ)) (rs : List ℝ) (i : ℕ),
      (hiddenLayerErrors next_nodes next_errors nodes rs i).length = min nodes.length rs.length
  | [], rs, _ => by simp [hiddenLayerErrors]
  | _ :: _, [], _ => by simp [hiddenLayerErrors]
  | n :: ns, r :: rs, i => by
      simp only [hiddenLayerErrors, List.length_cons,
        hiddenLayerErrors_length next_nodes next_errors ns rs (i + 1)]
      omega

theorem nodeWeightUpdatesTail_length (e : ℝ) : ∀ (ws ps : List ℝ),
    (nodeWeightUpdatesTail e ws ps).length = min ws.length ps.length
  | [], ps => by simp [nodeWeightUpdatesTail]
  | _ :: _, [] => by simp [nodeWeightUpdatesTail]
  | w :: ws, p :: ps => by
      simp only [nodeWeightUpdatesTail, List.length_cons,
        nodeWeightUpdatesTail_length e ws ps]
      omega

theorem nodeWeightUpdates_length (e : ℝ) (node prev_res : List ℝ)
    (h : node.length = prev_res.length + 1) :
    (nodeWeightUpdates e node prev_res).length = node.length := by
  cases node with
  | nil => simp at h
  | cons w ws =>
    simp only [nodeWeightUpdates, List.length_cons, nodeWeightUpdatesTail_length]
    simp only [List.length_cons] at h
    omega

theorem layerWeightUpdates_shape (prev_res : List ℝ) :
    ∀ (nodes : List (List ℝ)) (errs : List ℝ),
      (∀ node ∈ nodes, node.length = prev_res.length + 1) →
      nodes.length ≤ errs.length →
      (layerWeightUpdates prev_res nodes errs).map List.length = nodes.map List.length
  | [], _, _, _ => by simp [layerWeightUpdates]
  | _ :: _, [], _, hle => by simp at hle
  | n :: ns, e :: es, hn, hle => by
      simp only [layerWeightUpdates, List.map_cons, List.cons.injEq]
      refine ⟨nodeWeightUpdates_length e n prev_res (hn n (by simp)), ?_⟩
      exact layerWeightUpdates_shape prev_res ns es (fun node h => hn node (by simp [h]))
        (by simpa using hle)

theorem cwuAux_shape : ∀ (layers : List (List (List ℝ))) (prev_res : List ℝ)
    (res_list : List (List ℝ)) (targets : List ℝ),
    WellFormedFrom prev_res.length layers →
    res_list.map List.length = layers.map List.length →
    (layers ≠ [] → (layers.getLastD []).length ≤ targets.length) →
    (cwuAux layers prev_res res_list targets).1.map List.length = layers.map List.length ∧
    shape3 (cwuAux layers prev_res res_list targets).2 = shape3 layers
  | [], _, _, _, _, _, _ => by simp [cwuAux]
  | layer :: rest, prev_res, [], targets, _, hres, _ => by simp at hres
  | layer :: rest, prev_res, res :: rest_res, targets, hwf, hres, hlast => by
      simp only [List.map_cons, List.cons.injEq] at hres
      simp only [WellFormedFrom] at hwf
      cases rest with
      | nil =>
        have hts : layer.length ≤ targets.length := by
          have := hlast (by simp)
          simpa using this
        have herr : (outputLayerErrors layer res targets).length = layer.length := by
          rw [outputLayerErrors_length, hres.1]
          omega
        simp only [cwuAux, shape3, List.map_cons, List.map_nil, List.cons.injEq]
        refine ⟨⟨herr, trivial⟩, ?_, trivial⟩
        exact layerWeightUpdates_shape prev_res layer _ hwf.1 (le_of_eq herr.symm)
      | cons next rest2 =>
        have hwf2 : WellFormedFrom res.length (next :: rest2) := by
          rw [hres.1]
          exact hwf.2
        have hlast2 : next :: rest2 ≠ [] →
            ((next :: rest2).getLastD []).length ≤ targets.length := by
          intro _
          have h1 := hlast (by simp)
          rw [List.getLastD_cons, getLastD_congr _ _ ([] : List (List ℝ)) (by simp)] at h1
          exact h1
        have ihr := cwuAux_shape (next :: rest2) res rest_res targets hwf2 hres.2 hlast2
        have herr : (hiddenLayerErrors next
            ((cwuAux (next :: rest2) res rest_res targets).1.headD []) layer res 0).length
            = layer.length := by
          rw [hiddenLayerErrors_length, hres.1]
          omega
        simp only [cwuAux, shape3, List.map_cons, List.cons.injEq]
        refine ⟨⟨herr, by simpa [shape3] using ihr.1⟩, ?_, by simpa [shape3] using ihr.2⟩
        exact layerWeightUpdates_shape prev_res layer _ hwf.1 (le_of_eq herr.symm)

theorem calculate_weight_updates_shape (layers : List (List (List ℝ)))
    (inputs targets : List ℝ) (hwf : WellFormedFrom inputs.length layers)
    (hlast : layers ≠ [] → (layers.getLastD []).length ≤ targets.length) :
    shape3 (calculate_weight_updates layers (do_run layers inputs) targets) = shape3 layers := by
  have h1 : (do_run layers inputs).headD [] = inputs := rfl
  have h2 : (do_run layers inputs).drop 1 = runLayers layers inputs := rfl
  rw [calculate_weight_updates, h1, h2]
  exact (cwuAux_shape layers inputs (runLayers layers inputs) targets hwf
    (runLayers_lengths layers inputs) hlast).2

theorem updateNode_length (rate momentum : ℝ) : ∀ (w u p : List ℝ),
    u.length = w.length → p.length = w.length →
    (updateNode rate momentum w u p).1.length = w.length ∧
    (updateNode rate momentum w u p).2.length = w.length
  | [], _, _, _, _ => by simp [updateNode]
  | _ :: _, [], _, hu, _ => by simp at hu
  | _ :: _, _ :: _, [], _, hp => by simp at hp
  | a :: as, b :: bs, c :: cs, hu, hp => by
      have h := updateNode_length rate momentum as bs cs (by simpa using hu) (by simpa using hp)
      simp only [updateNode, List.length_cons]
      omega

theorem updateLayer_shape (rate momentum : ℝ) : ∀ (l u p : List (List ℝ)),
    u.map List.length = l.map List.length → p.map List.length = l.map List.length →
    (updateLayer rate momentum l u p).1.map List.length = l.map List.length ∧
    (updateLayer rate momentum l u p).2.map List.length = l.map List.length
  | [], _, _, _, _ => by simp [updateLayer]
  | _ :: _, [], _, hu, _ => by simp at hu
  | _ :: _, _ :: _, [], _, hp => by simp at hp
  | a :: as, b :: bs, c :: cs, hu, hp => by
      simp only [List.map_cons, List.cons.injEq] at hu hp
      have hn := updateNode_length rate momentum a b c hu.1 hp.1
      have hr := updateLayer_shape rate momentum as bs cs hu.2 hp.2
      simp only [updateLayer, List.map_cons, List.cons.injEq]
      exact ⟨⟨hn.1, hr.1⟩, hn.2, hr.2⟩

theorem update_weights_shape (rate momentum : ℝ) : ∀ (ls us ps : List (List (List ℝ))),
    shape3 us = shape3 ls → shape3 ps = shape3 ls →
    shape3 (update_weights ls us ps rate momentum).1 = shape3 ls ∧
    shape3 (update_weights ls us ps rate momentum).2 = shape3 ls
  | [], _, _, _, _ => by simp [update_weights, shape3]
  | _ :: _, [], _, hu, _ => by simp [shape3] at hu
  | _ :: _, _ :: _, [], _, hp => by simp [shape3] at hp
  | a :: as, b :: bs, c :: cs, hu, hp => by
      simp only [shape3, List.map_cons, List.cons.injEq] at hu hp
      have hn := updateLayer_shape rate momentum a b c hu.1 hp.1
      have hr := update_weights_shape rate momentum as bs cs
        (by simpa [shape3] using hu.2) (by simpa [shape3] using hp.2)
      simp only [update_weights, shape3, List.map_cons, List.cons.injEq]
      exact ⟨⟨hn.1, by simpa [shape3] using hr.1⟩, hn.2, by simpa [shape3] using hr.2⟩

theorem sumNode_zero : ∀ (node u : List ℝ), u.length = node.length →
    sumNode (node.map fun _ => (0 : ℝ)) u = u
  | [], [], _ => rfl
  | [], _ :: _, h => by simp at h
  | _ :: _, [], h => by simp at h
  | a :: as, b :: bs, h => by
      simp only [List.map_cons, sumNode, zero_add, List.cons.injEq, true_and]
      exact sumNode_zero as bs (by simpa using h)

theorem sumLayer_zero : ∀ (layer u : List (List ℝ)),
    u.map List.length = layer.map List.length →
    sumLayer (layer.map fun node => node.map fun _ => (0 : ℝ)) u = u
  | [], [], _ => rfl
  | [], _ :: _, h => by simp at h
  | _ :: _, [], h => by simp at h
  | a :: as, b :: bs, h => by
      simp only [List.map_cons, List.cons.injEq] at h
      simp only [List.map_cons, sumLayer, List.cons.injEq]
      exact ⟨sumNode_zero a b h.1, sumLayer_zero as bs h.2⟩

theorem sum_weights_tracker : ∀ (l u : List (List (List ℝ))), shape3 u = shape3 l →
    sum_weights (make_weights_tracker l (0 : ℝ)) u = u
  | [], [], _ => rfl
  | [], _ :: _, h => by simp [shape3] at h
  | _ :: _, [], h => by simp [shape3] at h
  | a :: as, b :: bs, h => by
      simp only [shape3, List.map_cons, List.cons.injEq] at h
      simp only [make_weights_tracker, List.map_cons, sum_weights, List.cons.injEq]
      refine ⟨sumLayer_zero a b h.1, ?_⟩
      have := sum_weights_tracker as bs (by simpa [shape3] using h.2)
      simpa [make_weights_tracker] using this

theorem sumNode_length : ∀ (a b : List ℝ), (sumNode a b).length = min a.length b.length
  | [], _ => by simp [sumNode]
  | _ :: _, [] => by simp [sumNode]
  | a :: as, b :: bs => by
      simp only [sumNode, List.length_cons, sumNode_length as bs]
      omega

theorem sumLayer_shape : ∀ (a b : List (List ℝ)), a.map List.length = b.map List.length →
    (sumLayer a b).map List.length = a.map List.length
  | [], _, _ => by simp [sumLayer]
  | _ :: _, [], h => by simp at h
  | a :: as, b :: bs, h => by
      simp only [List.map_cons, List.cons.injEq] at h
      simp only [sumLayer, List.map_cons, List.cons.injEq, sumNode_length]
      exact ⟨by omega, sumLayer_shape as bs h.2⟩

theorem sum_weights_shape : ∀ (a b : List (List (List ℝ))), shape3 a = shape3 b →
    shape3 (sum_weights a b) = shape3 a
  | [], _, _ => by simp [sum_weights, shape3]
  | _ :: _, [], h => by simp [shape3] at h
  | a :: as, b :: bs, h => by
      simp only [shape3, List.map_cons, List.cons.injEq] at h
      simp only [sum_weights, shape3, List.map_cons, List.cons.injEq]
      refine ⟨sumLayer_shape a b h.1, ?_⟩
      have := sum_weights_shape as bs (by simpa [shape3] using h.2)
      simpa [shape3] using this

theorem chunksOf_mem {α : Type _} (n : ℕ) (l0 : List α) :
    ∀ c ∈ chunksOf n l0, ∀ x ∈ c, x ∈ l0 := by
  have key : ∀ (m : ℕ) (l : List α), l.length ≤ m →
      ∀ c ∈ chunksOf n l, ∀ x ∈ c, x ∈ l := by
    intro m
    induction m with
    | zero =>
      intro l hl c hc
      cases l with
      | nil => simp [chunksOf] at hc
      | cons a as => simp at hl
    | succ m ih =>
      intro l hl c hc x hx
      cases l with
      | nil => simp [chunksOf] at hc
      | cons a as =>
        rw [chunksOf] at hc
        by_cases hn : n = 0
        · simp [hn] at hc
        · rw [dif_neg hn] at hc
          rcases List.mem_cons.mp hc with h | h
          · subst h
            exact List.take_subset _ _ hx
          · have hlen : ((a :: as).drop n).length ≤ m := by
              simp only [List.length_drop, List.length_cons]
              simp only [List.length_cons] at hl
              omega
            exact List.drop_subset _ _ (ih _ hlen c h x hx)
  exact key l0.length l0 le_rfl

theorem trainLoop_iterate (step : TrainState → TrainState) (halt : HaltCondition) :
    ∀ (fuel e : ℕ) (st : TrainState) (n : ℕ) (st' : TrainState),
      trainLoop step halt fuel e st = some (n, st') → ∃ m, st' = step^[m] st := by
  intro fuel
  induction fuel with
  | zero => intro e st n st' h; simp [trainLoop] at h
  | succ fuel ih =>
    intro e st n st' h
    rw [trainLoop] at h
    by_cases hc : 0 < e ∧ haltMet halt e st.err
    · rw [if_pos hc] at h
      simp only [Option.some.injEq, Prod.mk.injEq] at h
      exact ⟨0, h.2.symm⟩
    · rw [if_neg hc] at h
      obtain ⟨m, hm⟩ := ih (e + 1) (step st) n st' h
      exact ⟨m + 1, by rw [hm, Function.iterate_succ_apply]⟩

theorem incExampleStep_shape (rate momentum : ℝ) (net : NN) (hwf : net.WellFormed)
    (ex : List ℝ × List ℝ) (st : TrainState)
    (hl : shape3 st.layers = shape3 net.layers)
    (hp : shape3 st.prevDeltas = shape3 net.layers)
    (hex : ex.1.length = net.num_inputs ∧ ex.2.length = (net.layers.getLastD []).length) :
    shape3 (incExampleStep rate momentum st ex).layers = shape3 net.layers ∧
    shape3 (incExampleStep rate momentum st ex).prevDeltas = shape3 net.layers := by
  have hwf' : WellFormedFrom ex.1.length st.layers := by
    rw [hex.1]
    exact wellFormedFrom_congr net.num_inputs st.layers net.layers hl hwf
  have hlast : st.layers ≠ [] → (st.layers.getLastD []).length ≤ ex.2.length := by
    intro _
    rw [hex.2, shape3_getLastD_length hl]
  have hwu : shape3 (calculate_weight_updates st.layers (do_run st.layers ex.1) ex.2)
      = shape3 st.layers :=
    calculate_weight_updates_shape st.layers ex.1 ex.2 hwf' hlast
  have h := update_weights_shape rate momentum st.layers _ st.prevDeltas hwu
    (hp.trans hl.symm)
  exact ⟨h.1.trans hl, h.2.trans hl⟩

theorem incFold_shape (rate momentum : ℝ) (net : NN) (hwf : net.WellFormed) :
    ∀ (exs : List (List ℝ × List ℝ)) (s : TrainState),
      (∀ ex ∈ exs, ex.1.length = net.num_inputs ∧
        ex.2.length = (net.layers.getLastD []).length) →
      shape3 s.layers = shape3 net.layers → shape3 s.prevDeltas = shape3 net.layers →
      shape3 (exs.foldl (incExampleStep rate momentum) s).layers = shape3 net.layers ∧
      shape3 (exs.foldl (incExampleStep rate momentum) s).prevDeltas = shape3 net.layers := by
  intro exs
  induction exs with
  | nil => intro s _ hl hp; exact ⟨hl, hp⟩
  | cons ex rest ih =>
    intro s hex hl hp
    rw [List.foldl_cons]
    have h := incExampleStep_shape rate momentum net hwf ex s hl hp (hex ex (by simp))
    exact ih _ (fun e he => hex e (by simp [he])) h.1 h.2

theorem incEpochStep_shape (rate momentum : ℝ) (net : NN) (hwf : net.WellFormed)
    (examples : List (List ℝ × List ℝ))
    (hex : ∀ ex ∈ examples, ex.1.length = net.num_inputs ∧
      ex.2.length = (net.layers.getLastD []).length)
    (st : TrainState) (hl : shape3 st.layers = shape3 net.layers)
    (hp : shape3 st.prevDeltas = shape3 net.layers) :
    shape3 (incEpochStep examples rate momentum st).layers = shape3 net.layers ∧
    shape3 (incEpochStep examples rate momentum st).prevDeltas = shape3 net.layers := by
  simp only [incEpochStep]
  exact incFold_shape rate momentum net hwf examples ⟨st.layers, st.prevDeltas, 0⟩ hex hl hp

theorem chunkAccumFold_shape (net : NN) (hwf : net.WellFormed)
    (layers : List (List (List ℝ))) (hL : shape3 layers = shape3 net.layers) :
    ∀ (exs : List (List ℝ × List ℝ)) (acc : ℝ × List (List (List ℝ))),
      (∀ ex ∈ exs, ex.1.length = net.num_inputs ∧
        ex.2.length = (net.layers.getLastD []).length) →
      shape3 acc.2 = shape3 net.layers →
      shape3 (exs.foldl (chunkExampleFold layers) acc).2 = shape3 net.layers := by
  intro exs
  induction exs with
  | nil => intro acc _ h; exact h
  | cons ex rest ih =>
    intro acc hex hacc
    rw [List.foldl_cons]
    have hwf' : WellFormedFrom ex.1.length layers := by
      rw [(hex ex (by simp)).1]
      exact wellFormedFrom_congr net.num_inputs layers net.layers hL hwf
    have hlast : layers ≠ [] → (layers.getLastD []).length ≤ ex.2.length := by
      intro _
      rw [(hex ex (by simp)).2, shape3_getLastD_length hL]
    have hwu := (calculate_weight_updates_shape layers ex.1 ex.2 hwf' hlast).trans hL
    have hs : shape3 (sum_weights acc.2
        (calculate_weight_updates layers (do_run layers ex.1) ex.2)) = shape3 net.layers :=
      (sum_weights_shape _ _ (hacc.trans hwu.symm)).trans hacc
    exact ih _ (fun e he => hex e (by simp [he])) hs

theorem chunkStep_shape (rate momentum : ℝ) (net : NN) (hwf : net.WellFormed)
    (exs : List (List ℝ × List ℝ)) (s : TrainState)
    (hl : shape3 s.layers = shape3 net.layers)
    (hp : shape3 s.prevDeltas = shape3 net.layers)
    (hex : ∀ ex ∈ exs, ex.1.length = net.num_inputs ∧
      ex.2.length = (net.layers.getLastD []).length) :
    shape3 (chunkStep rate momentum s exs).layers = shape3 net.layers ∧
    shape3 (chunkStep rate momentum s exs).prevDeltas = shape3 net.layers := by
  have hacc : shape3 (chunkAccum s.layers exs).2 = shape3 net.layers :=
    chunkAccumFold_shape net hwf s.layers hl exs _ hex
      ((make_weights_tracker_shape s.layers 0).trans hl)
  have h := update_weights_shape rate momentum s.layers _ s.prevDeltas
    (hacc.trans hl.symm) (hp.trans hl.symm)
  exact ⟨h.1.trans hl, h.2.trans hl⟩

theorem chunkEpochStep_shape (rate momentum : ℝ) (net : NN) (hwf : net.WellFormed)
    (examples : List (List ℝ × List ℝ)) (chunk_size : ℕ)
    (hex : ∀ ex ∈ examples, ex.1.length = net.num_inputs ∧
      ex.2.length = (net.layers.getLastD []).length)
    (st : TrainState) (hl : shape3 st.layers = shape3 net.layers)
    (hp : shape3 st.prevDeltas = shape3 net.layers) :
    shape3 (chunkEpochStep examples rate momentum chunk_size st).layers = shape3 net.layers ∧
    shape3 (chunkEpochStep examples rate momentum chunk_size st).prevDeltas
      = shape3 net.layers := by
  simp only [chunkEpochStep]
  have key : ∀ (cs : List (List (List ℝ × List ℝ))) (s : TrainState),
      (∀ c ∈ cs, ∀ ex ∈ c, ex.1.length = net.num_inputs ∧
        ex.2.length = (net.layers.getLastD []).length) →
      shape3 s.layers = shape3 net.layers → shape3 s.prevDeltas = shape3 net.layers →
      shape3 (cs.foldl (chunkStep rate momentum) s).layers = shape3 net.layers ∧
      shape3 (cs.foldl (chunkStep rate momentum) s).prevDeltas = shape3 net.layers := by
    intro cs
    induction cs with
    | nil => intro s _ hl' hp'; exact ⟨hl', hp'⟩
    | cons c rest ih =>
      intro s hc hl' hp'
      rw [List.foldl_cons]
      have h := chunkStep_shape rate momentum net hwf c s hl' hp' (hc c (by simp))
      exact ih _ (fun c' hc' => hc c' (by simp [hc'])) h.1 h.2
  exact key (chunksOf chunk_size examples) ⟨st.layers, st.prevDeltas, 0⟩
    (fun c hc ex he => hex ex (chunksOf_mem chunk_size examples c hc ex he)) hl hp

theorem trainLoop_shape (stepF : TrainState → TrainState) (L : List (List (List ℝ)))
    (hstep : ∀ st : TrainState, shape3 st.layers = shape3 L →
      shape3 st.prevDeltas = shape3 L →
      shape3 (stepF st).layers = shape3 L ∧ shape3 (stepF st).prevDeltas = shape3 L)
    (halt : HaltCondition) (fuel n : ℕ) (st' : TrainState)
    (h : trainLoop stepF halt fuel 0 ⟨L, make_weights_tracker L 0, 0⟩ = some (n, st')) :
    shape3 st'.layers = shape3 L := by
  obtain ⟨m, hm⟩ := trainLoop_iterate stepF halt fuel 0 _ n st' h
  have hiter : ∀ k,
      shape3 ((stepF^[k]) (⟨L, make_weights_tracker L 0, 0⟩ : TrainState)).layers = shape3 L ∧
      shape3 ((stepF^[k]) (⟨L, make_weights_tracker L 0, 0⟩ : TrainState)).prevDeltas
        = shape3 L := by
    intro k
    induction k with
    | zero => exact ⟨rfl, make_weights_tracker_shape L 0⟩
    | succ k ihk =>
      rw [Function.iterate_succ_apply']
      exact hstep _ ihk.1 ihk.2
  rw [hm]
  exact (hiter m).1

/-- C10: a completed training call (either strategy) preserves the
network's structural shape — the layer count, every layer's node count and
every node's weight count are unchanged; training touches only the numeric
weight values. -/
theorem train_details_shape_spec (net : NN) (examples : List (List ℝ × List ℝ))
    (rate momentum : ℝ) (halt : HaltCondition) (num_threads : ℕ)
    (learning_mode : LearningMode) (chunk_size fuel : ℕ) (hwf : net.WellFormed)
    (err : ℝ) (net' : NN)
    (h : net.train_details examples rate momentum halt num_threads learning_mode chunk_size fuel
        = some (err, net')) :
    shape3 net'.layers = shape3 net.layers := by
  rw [NN.train_details.eq_def] at h
  by_cases hval : ∀ ex ∈ examples,
      ex.1.length = net.num_inputs ∧ ex.2.length = (net.layers.getLastD []).length
  · rw [if_pos hval] at h
    cases learning_mode with
    | Incremental =>
      by_cases ht : num_threads = 1
      · rw [if_pos ht, NN.train_incremental] at h
        cases hres : trainLoop (incEpochStep examples rate momentum) halt fuel 0
            ⟨net.layers, make_weights_tracker net.layers 0, 0⟩ with
        | none => rw [hres] at h; simp at h
        | some r =>
          rw [hres] at h
          simp only [Option.map_some', Option.some.injEq, Prod.mk.injEq] at h
          have hlayers : net'.layers = r.2.layers := by rw [← h.2]
          rw [hlayers]
          exact trainLoop_shape (incEpochStep examples rate momentum) net.layers
            (fun st hl hp => incEpochStep_shape rate momentum net hwf examples hval st hl hp)
            halt fuel r.1 r.2 (by rw [hres])
      · rw [if_neg ht] at h
        simp at h
    | Chunk =>
      rw [NN.train_chunk] at h
      cases hres : trainLoop (chunkEpochStep examples rate momentum chunk_size) halt fuel 0
          ⟨net.layers, make_weights_tracker net.layers 0, 0⟩ with
      | none => rw [hres] at h; simp at h
      | some r =>
        rw [hres] at h
        simp only [Option.map_some', Option.some.injEq, Prod.mk.injEq] at h
        have hlayers : net'.layers = r.2.layers := by rw [← h.2]
        rw [hlayers]
        exact trainLoop_shape (chunkEpochStep examples rate momentum chunk_size) net.layers
          (fun st hl hp =>
            chunkEpochStep_shape rate momentum net hwf examples chunk_size hval st hl hp)
          halt fuel r.1 r.2 (by rw [hres])
  · rw [if_neg hval] at h
    simp at h

/-- witness for C10: a concrete one-epoch incremental training call on a
concrete well-formed network. -/
theorem train_details_shape_spec_witness :
    net1.WellFormed ∧
    net1.train_details exs0 1 0 (.Epochs 1) 1 .Incremental 10 2
      = some ((((incEpochStep exs0 1 0)^[1])
            ⟨net1.layers, make_weights_tracker net1.layers 0, 0⟩).err,
          ⟨(((incEpochStep exs0 1 0)^[1])
            ⟨net1.layers, make_weights_tracker net1.layers 0, 0⟩).layers, net1.num_inputs⟩) ∧
    shape3 (NN.mk (((incEpochStep exs0 1 0)^[1])
        ⟨net1.layers, make_weights_tracker net1.layers 0, 0⟩).layers net1.num_inputs).layers
      = shape3 net1.layers := by
  have hwf : net1.WellFormed := by
    simp [NN.WellFormed, WellFormedFrom, net1]
  have hval : ∀ ex ∈ exs0,
      ex.1.length = net1.num_inputs ∧ ex.2.length = (net1.layers.getLastD []).length := by
    intro ex hex
    simp only [exs0, List.mem_cons, List.not_mem_nil, or_false] at hex
    rcases hex with h | h <;> subst h <;> simp [net1]
  have hsome : net1.train_details exs0 1 0 (.Epochs 1) 1 .Incremental 10 2
      = some ((((incEpochStep exs0 1 0)^[1])
            ⟨net1.layers, make_weights_tracker net1.layers 0, 0⟩).err,
          ⟨(((incEpochStep exs0 1 0)^[1])
            ⟨net1.layers, make_weights_tracker net1.layers 0, 0⟩).layers, net1.num_inputs⟩) := by
    rw [NN.train_details.eq_def, if_pos hval]
    rw [show (1 : ℕ) = 1 from rfl, if_pos rfl, NN.train_incremental,
        trainLoop_Epochs_from_zero _ 1 _ one_pos]
    rfl
  exact ⟨hwf, hsome,
    train_details_shape_spec net1 exs0 1 0 (.Epochs 1) 1 .Incremental 10 2 hwf _ _ hsome⟩

theorem chunkStep_singleton (rate momentum : ℝ) (net : NN) (hwf : net.WellFormed)
    (ex : List ℝ × List ℝ) (s : TrainState)
    (hl : shape3 s.layers = shape3 net.layers)
    (hex : ex.1.length = net.num_inputs ∧ ex.2.length = (net.layers.getLastD []).length) :
    chunkStep rate momentum s [ex] = incExampleStep rate momentum s ex := by
  have hwf' : WellFormedFrom ex.1.length s.layers := by
    rw [hex.1]
    exact wellFormedFrom_congr net.num_inputs s.layers net.layers hl hwf
  have hlast : s.layers ≠ [] → (s.layers.getLastD []).length ≤ ex.2.length := by
    intro _
    rw [hex.2, shape3_getLastD_length hl]
  have hsum := sum_weights_tracker s.layers
    (calculate_weight_updates s.layers (do_run s.layers ex.1) ex.2)
    (calculate_weight_updates_shape s.layers ex.1 ex.2 hwf' hlast)
  simp only [chunkStep, chunkAccum, chunkExampleFold, incExampleStep,
    List.foldl_cons, List.foldl_nil, zero_add, hsum]

theorem foldl_single_chunk (rate momentum : ℝ) (net : NN) (hwf : net.WellFormed) :
    ∀ (exs : List (List ℝ × List ℝ)) (s : TrainState),
      (∀ ex ∈ exs, ex.1.length = net.num_inputs ∧
        ex.2.length = (net.layers.getLastD []).length) →
      shape3 s.layers = shape3 net.layers → shape3 s.prevDeltas = shape3 net.layers →
      exs.foldl (fun s' ex => chunkStep rate momentum s' [ex]) s
        = exs.foldl (incExampleStep rate momentum) s := by
  intro exs
  induction exs with
  | nil => intro s _ _ _; rfl
  | cons ex rest ih =>
    intro s hex hl hp
    rw [List.foldl_cons, List.foldl_cons,
        chunkStep_singleton rate momentum net hwf ex s hl (hex ex (by simp))]
    have h := incExampleStep_shape rate momentum net hwf ex s hl hp (hex ex (by simp))
    exact ih _ (fun e he => hex e (by simp [he])) h.1 h.2

theorem chunksOf_one {α : Type _} : ∀ l : List α, chunksOf 1 l = l.map (fun x => [x])
  | [] => by simp [chunksOf]
  | x :: xs => by
      rw [chunksOf, dif_neg one_ne_zero]
      simp [chunksOf_one xs]

theorem chunkEpoch_one_eq (net : NN) (examples : List (List ℝ × List ℝ))
    (rate momentum : ℝ) (hwf : net.WellFormed)
    (hex : ∀ ex ∈ examples, ex.1.length = net.num_inputs ∧
      ex.2.length = (net.layers.getLastD []).length)
    (st : TrainState) (hl : shape3 st.layers = shape3 net.layers)
    (hp : shape3 st.prevDeltas = shape3 net.layers) :
    chunkEpochStep examples rate momentum 1 st = incEpochStep examples rate momentum st := by
  simp only [chunkEpochStep, incEpochStep, chunksOf_one, List.foldl_map]
  exact foldl_single_chunk rate momentum net hwf examples ⟨st.layers, st.prevDeltas, 0⟩
    hex hl hp

/-- C1 (amended): chunked training with thread count 1 and chunk size 1,
run for one epoch, coincides exactly — same accumulated training error,
same updated weights, same momentum tracker — with incremental training run
for one epoch on the same initial weights, rate and momentum.  (With chunk
size equal to the full example count the equivalence fails once two or more
examples are present, because incremental mode updates the weights between
examples of the same epoch — see the counterexample; for a single example
the two configurations coincide.) -/
theorem chunk_incremental_equiv_spec (net : NN) (examples : List (List ℝ × List ℝ))
    (rate momentum : ℝ) (hwf : net.WellFormed)
    (hex : ∀ ex ∈ examples, ex.1.length = net.num_inputs ∧
      ex.2.length = (net.layers.getLastD []).length) :
    net.train_chunk examples rate momentum (.Epochs 1) 1 1 2
      = net.train_incremental examples rate momentum (.Epochs 1) 2 := by
  rw [NN.train_chunk, NN.train_incremental, trainLoop_Epochs_from_zero _ 1 _ one_pos,
      trainLoop_Epochs_from_zero _ 1 _ one_pos]
  simp only [Function.iterate_one]
  rw [chunkEpoch_one_eq net examples rate momentum hwf hex _ rfl
      (make_weights_tracker_shape net.layers 0)]

/-- witness for C1's amended theorem at a concrete network and examples. -/
theorem chunk_incremental_equiv_spec_witness :
    net1.WellFormed ∧
    net1.train_chunk exs0 1 0 (.Epochs 1) 1 1 2
      = net1.train_incremental exs0 1 0 (.Epochs 1) 2 := by
  have hwf : net1.WellFormed := by simp [NN.WellFormed, WellFormedFrom, net1]
  have hval : ∀ ex ∈ exs0,
      ex.1.length = net1.num_inputs ∧ ex.2.length = (net1.layers.getLastD []).length := by
    intro ex hex
    simp only [exs0, List.mem_cons, List.not_mem_nil, or_false] at hex
    rcases hex with h | h <;> subst h <;> simp [net1]
  exact ⟨hwf, chunk_incremental_equiv_spec net1 exs0 1 0 hwf hval⟩

theorem sigmoid_zero : sigmoid 0 = 1 / 2 := by
  rw [sigmoid, neg_zero, Real.exp_zero]
  norm_num

theorem sigmoid_eighth_lt : sigmoid (-(1 / 8)) < 1 / 2 := by
  rw [sigmoid, neg_neg]
  have h1 : (1 : ℝ) + 1 / 8 ≤ Real.exp (1 / 8) := by
    have := Real.add_one_le_exp (1 / 8 : ℝ)
    linarith
  have h2 : (0 : ℝ) < 1 + Real.exp (1 / 8) := by positivity
  rw [div_lt_div_iff₀ h2 (by norm_num)]
  linarith

/-- C1 counterexample: on a one-weight-per-node network with two identical
examples, learning rate 1 and momentum 0, one epoch of chunked training
with thread count 1 and chunk size equal to the full example count (2)
accumulates a training error different from one epoch of incremental
training on the same initial weights — incremental mode updates the weights
between the two examples, chunked mode does not. -/
theorem chunk_incremental_counterexample :
    (net1.train_chunk exs0 1 0 (.Epochs 1) 1 2 2).map Prod.fst
      ≠ (net1.train_incremental exs0 1 0 (.Epochs 1) 2).map Prod.fst := by
  rw [NN.train_chunk, NN.train_incremental, trainLoop_Epochs_from_zero _ 1 _ one_pos,
      trainLoop_Epochs_from_zero _ 1 _ one_pos]
  simp only [Function.iterate_one, Option.map_some', ne_eq, Option.some.injEq]
  have hc : (chunkEpochStep exs0 1 0 2
      ⟨net1.layers, make_weights_tracker net1.layers 0, 0⟩).err = 1 / 2 := by
    norm_num [chunkEpochStep, chunksOf, chunkStep, chunkAccum, chunkExampleFold, do_run,
      runLayers, modified_dotprod, dotZip, calculate_error, sqDiffSum,
      calculate_weight_updates, cwuAux, outputLayerErrors, hiddenLayerErrors,
      layerWeightUpdates, nodeWeightUpdates, nodeWeightUpdatesTail, sum_weights, sumLayer,
      sumNode, make_weights_tracker, update_weights, updateLayer, updateNode, net1, exs0,
      sigmoid_zero]
  have hi : (incEpochStep exs0 1 0
      ⟨net1.layers, make_weights_tracker net1.layers 0, 0⟩).err
      = 1 / 4 + sigmoid (-(1 / 8)) ^ 2 := by
    norm_num [incEpochStep, incExampleStep, do_run, runLayers, modified_dotprod, dotZip,
      calculate_error, sqDiffSum, calculate_weight_updates, cwuAux, outputLayerErrors,
      hiddenLayerErrors, layerWeightUpdates, nodeWeightUpdates, nodeWeightUpdatesTail,
      make_weights_tracker, update_weights, updateLayer, updateNode, net1, exs0,
      sigmoid_zero]
  rw [hc, hi]
  have h0 := sigmoid_pos (-(1 / 8))
  have hh := sigmoid_eighth_lt
  intro hEq
  nlinarith

theorem errSum_eq (i : ℕ) : ∀ (nds : List (List ℝ)) (es : List ℝ), es.length = nds.length →
    errSum nds es i
      = ∑ k in Finset.range nds.length, (nds.getD k []).getD (i + 1) 0 * es.getD k 0
  | [], [], _ => by simp [errSum]
  | [], _ :: _, h => by simp at h
  | _ :: _, [], h => by simp at h
  | nd :: nds, e :: es, h => by
      rw [show errSum (nd :: nds) (e :: es) i = nd.getD (i + 1) 0 * e + errSum nds es i
            from rfl,
          List.length_cons, Finset.sum_range_succ']
      simp only [List.getD_cons_succ, List.getD_cons_zero]
      rw [errSum_eq i nds es (by simpa using h)]
      ring

theorem outputLayerErrors_getD : ∀ (nodes : List (List ℝ)) (rs ts : List ℝ) (j : ℕ),
    j < nodes.length → j < rs.length → j < ts.length →
    (outputLayerErrors nodes rs ts).getD j 0
      = rs.getD j 0 * (1 - rs.getD j 0) * (ts.getD j 0 - rs.getD j 0)
  | [], _, _, j, hj, _, _ => by simp at hj
  | _ :: _, [], _, j, _, hr, _ => by simp at hr
  | _ :: _, _ :: _, [], j, _, _, ht1 => by simp at ht1
  | n :: ns, r :: rs, t :: ts, 0, _, _, _ => by simp [outputLayerErrors]
  | n :: ns, r :: rs, t :: ts, j + 1, hj, hr, ht1 => by
      simp only [outputLayerErrors, List.getD_cons_succ]
      exact outputLayerErrors_getD ns rs ts j (by simpa using hj) (by simpa using hr)
        (by simpa using ht1)

theorem hiddenLayerErrors_getD (next_nodes : List (List ℝ)) (next_errors : List ℝ) :
    ∀ (nodes : List (List ℝ)) (rs : List ℝ) (i0 j : ℕ), j < nodes.length → j < rs.length →
    (hiddenLayerErrors next_nodes next_errors nodes rs i0).getD j 0
      = rs.getD j 0 * (1 - rs.getD j 0) * errSum next_nodes next_errors (i0 + j)
  | [], _, _, j, hj, _ => by simp at hj
  | _ :: _, [], _, j, _, hr => by simp at hr
  | n :: ns, r :: rs, i0, 0, _, _ => by simp [hiddenLayerErrors]
  | n :: ns, r :: rs, i0, j + 1, hj, hr => by
      simp only [hiddenLayerErrors, List.getD_cons_succ]
      rw [hiddenLayerErrors_getD next_nodes next_errors ns rs (i0 + 1) j (by simpa using hj)
          (by simpa using hr),
        show i0 + 1 + j = i0 + (j + 1) by omega]

theorem cwuAux_errors_lengths : ∀ (layers : List (List (List ℝ))) (prev_res : List ℝ)
    (res_list : List (List ℝ)) (targets : List ℝ),
    res_list.map List.length = layers.map List.length →
    (layers ≠ [] → (layers.getLastD []).length ≤ targets.length) →
    (cwuAux layers prev_res res_list targets).1.map List.length = layers.map List.length
  | [], _, _, _, _, _ => by simp [cwuAux]
  | _ :: _, _, [], _, hres, _ => by simp at hres
  | layer :: rest, prev_res, res :: rest_res, targets, hres, hlast => by
      simp only [List.map_cons, List.cons.injEq] at hres
      cases rest with
      | nil =>
        have hts : layer.length ≤ targets.length := by simpa using hlast (by simp)
        simp only [cwuAux, List.map_cons, List.map_nil, List.cons.injEq]
        refine ⟨?_, trivial⟩
        rw [outputLayerErrors_length, hres.1]
        omega
      | cons next rest2 =>
        have hlast2 : next :: rest2 ≠ [] →
            ((next :: rest2).getLastD []).length ≤ targets.length := by
          intro _
          have h1 := hlast (by simp)
          rwa [List.getLastD_cons, getLastD_congr _ _ ([] : List (List ℝ)) (by simp)] at h1
        have ihr := cwuAux_errors_lengths (next :: rest2) res rest_res targets hres.2 hlast2
        simp only [cwuAux, List.map_cons, List.cons.injEq]
        refine ⟨?_, by simpa using ihr⟩
        rw [hiddenLayerErrors_length, hres.1]
        omega

theorem headD_length_of_map {l : List (List ℝ)} {a : ℕ} {bs : List ℕ}
    (h : l.map List.length = a :: bs) : (l.headD []).length = a := by
  cases l with
  | nil => simp at h
  | cons x xs =>
    simp only [List.map_cons, List.cons.injEq] at h
    simpa using h.1

theorem headD_eq_getD_zero {α : Type _} (l : List (List α)) : l.headD [] = l.getD 0 [] := by
  cases l <;> rfl

theorem ne_nil_of_map_eq_cons {l : List (List ℝ)} {a : ℕ} {bs : List ℕ}
    (h : l.map List.length = a :: bs) : l ≠ [] := by
  intro hl
  rw [hl] at h
  simp at h

theorem cwuAux_errors : ∀ (layers : List (List (List ℝ))) (prev_res : List ℝ)
    (res_list : List (List ℝ)) (targets : List ℝ),
    res_list.map List.length = layers.map List.length →
    (layers ≠ [] → (layers.getLastD []).length ≤ targets.length) →
    (∀ j, j < (layers.getLastD []).length →
      ((cwuAux layers prev_res res_list targets).1.getLastD []).getD j 0
        = (res_list.getLastD []).getD j 0 * (1 - (res_list.getLastD []).getD j 0)
          * (targets.getD j 0 - (res_list.getLastD []).getD j 0)) ∧
    (∀ i j, i + 1 < layers.length → j < (layers.getD i []).length →
      ((cwuAux layers prev_res res_list targets).1.getD i []).getD j 0
        = (res_list.getD i []).getD j 0 * (1 - (res_list.getD i []).getD j 0)
          * ∑ k in Finset.range ((layers.getD (i + 1) []).length),
              ((layers.getD (i + 1) []).getD k []).getD (j + 1) 0
                * (((cwuAux layers prev_res res_list targets).1.getD (i + 1) []).getD k 0))
  | [], _, _, _, _, _ =>
      ⟨fun j hj => by simp at hj, fun i j hi _ => by simp at hi⟩
  | _ :: _, _, [], _, hres, _ => by simp at hres
  | [layer], prev_res, res :: rest_res, targets, hres, hlast => by
      simp only [List.map_cons, List.map_nil, List.cons.injEq] at hres
      have hemp : rest_res = [] := List.map_eq_nil_iff.mp hres.2
      subst hemp
      refine ⟨?_, ?_⟩
      · intro j hj
        simp only [List.getLastD_cons, List.getLastD_nil] at hj ⊢
        have hts : layer.length ≤ targets.length := by simpa using hlast (by simp)
        simp only [cwuAux, List.getLastD_cons, List.getLastD_nil]
        exact outputLayerErrors_getD layer res targets j hj (by omega) (by omega)
      · intro i j hi _
        simp at hi
  | layer :: next :: rest2, prev_res, res :: rest_res, targets, hres, hlast => by
      simp only [List.map_cons, List.cons.injEq] at hres
      have hlast2 : next :: rest2 ≠ [] →
          ((next :: rest2).getLastD []).length ≤ targets.length := by
        intro _
        have h1 := hlast (by simp)
        rwa [List.getLastD_cons, getLastD_congr _ _ ([] : List (List ℝ)) (by simp)] at h1
      have IH := cwuAux_errors (next :: rest2) res rest_res targets hres.2 hlast2
      have hTl := cwuAux_errors_lengths (next :: rest2) res rest_res targets hres.2 hlast2
      have hTne : (cwuAux (next :: rest2) res rest_res targets).1 ≠ [] :=
        ne_nil_of_map_eq_cons (by simpa using hTl)
      have hRne : rest_res ≠ [] := ne_nil_of_map_eq_cons (by simpa using hres.2)
      have hE : (cwuAux (layer :: next :: rest2) prev_res (res :: rest_res) targets).1
          = hiddenLayerErrors next
              ((cwuAux (next :: rest2) res rest_res targets).1.headD []) layer res 0
            :: (cwuAux (next :: rest2) res rest_res targets).1 := by
        cases rest_res with
        | nil => exact absurd rfl hRne
        | cons r2 rs2 => simp only [cwuAux]
      refine ⟨?_, ?_⟩
      · intro j hj
        rw [List.getLastD_cons, getLastD_congr _ _ ([] : List (List ℝ)) (by simp)] at hj
        rw [hE, List.getLastD_cons, getLastD_congr _ _ ([] : List ℝ) hTne,
            show (res :: rest_res).getLastD [] = rest_res.getLastD [] from by
              rw [List.getLastD_cons]
              exact getLastD_congr _ _ _ hRne]
        exact IH.1 j hj
      · intro i j hi hj
        cases i with
        | zero =>
          simp only [List.getD_cons_zero, List.getD_cons_succ] at hj ⊢
          rw [hE]
          simp only [List.getD_cons_zero, List.getD_cons_succ]
          rw [hiddenLayerErrors_getD next
              ((cwuAux (next :: rest2) res rest_res targets).1.headD []) layer res 0 j hj
              (by rw [hres.1]; exact hj),
            zero_add,
            errSum_eq j next ((cwuAux (next :: rest2) res rest_res targets).1.headD [])
              (headD_length_of_map
                (show (cwuAux (next :: rest2) res rest_res targets).1.map List.length
                    = next.length :: rest2.map List.length from by simpa using hTl)),
            headD_eq_getD_zero]
        | succ i =>
          simp only [List.getD_cons_succ] at hj ⊢
          rw [hE]
          simp only [List.getD_cons_succ]
          exact IH.2 i j (by simpa using hi) hj

/-- C2: in the backpropagation step, every output-layer node error equals
result·(1 − result)·(target − result), and every hidden-layer node error —
computed in reverse layer order from the next layer's already-computed
errors — equals result·(1 − result) times the sum over next-layer nodes of
(next-node weight at index [this-node-index + 1]) · (next-node error), the
+1 offset skipping the threshold weight at index 0.  The results are those
of the forward pass: `do_run` stores layer i's result vector at position
i + 1 (position 0 holds the raw input). -/
theorem backprop_errors_spec (net : NN) (inputs targets : List ℝ)
    (ht : (net.layers.getLastD []).length ≤ targets.length) :
    (∀ j, j < (net.layers.getLastD []).length →
      ((network_errors net.layers (do_run net.layers inputs) targets).getLastD []).getD j 0
        = ((do_run net.layers inputs).getLastD []).getD j 0
          * (1 - ((do_run net.layers inputs).getLastD []).getD j 0)
          * (targets.getD j 0 - ((do_run net.layers inputs).getLastD []).getD j 0)) ∧
    (∀ i j, i + 1 < net.layers.length → j < (net.layers.getD i []).length →
      ((network_errors net.layers (do_run net.layers inputs) targets).getD i []).getD j 0
        = ((do_run net.layers inputs).getD (i + 1) []).getD j 0
          * (1 - ((do_run net.layers inputs).getD (i + 1) []).getD j 0)
          * ∑ k in Finset.range ((net.layers.getD (i + 1) []).length),
              ((net.layers.getD (i + 1) []).getD k []).getD (j + 1) 0
                * ((network_errors net.layers (do_run net.layers inputs) targets).getD
                    (i + 1) []).getD k 0) := by
  have hkey := cwuAux_errors net.layers inputs (runLayers net.layers inputs) targets
    (runLayers_lengths net.layers inputs) (fun _ => ht)
  have hne : network_errors net.layers (do_run net.layers inputs) targets
      = (cwuAux net.layers inputs (runLayers net.layers inputs) targets).1 := rfl
  by_cases hL : net.layers = []
  · refine ⟨fun j hj => ?_, fun i j hi _ => ?_⟩
    · rw [hL] at hj; simp at hj
    · rw [hL] at hi; simp at hi
  · have hLne : net.layers ≠ [] := hL
    have hRlast : (do_run net.layers inputs).getLastD []
        = (runLayers net.layers inputs).getLastD [] := by
      rw [do_run, List.getLastD_cons]
      exact getLastD_congr _ _ _ (runLayers_ne_nil _ _ hLne)
    have hRg : ∀ i : ℕ, (do_run net.layers inputs).getD (i + 1) []
        = (runLayers net.layers inputs).getD i [] := fun i => rfl
    refine ⟨fun j hj => ?_, fun i j hi hj => ?_⟩
    · rw [hne, hRlast]
      exact hkey.1 j hj
    · rw [hne, hRg i]
      exact hkey.2 i j hi hj

/-- witness for C2 at a concrete two-layer network, evaluating the output
node error and the hidden node error. -/
theorem backprop_errors_spec_witness :
    ((net2.layers.getLastD []).length ≤ ([0] : List ℝ).length) ∧
    (0 < (net2.layers.getLastD []).length ∧
      ((network_errors net2.layers (do_run net2.layers [0]) [0]).getLastD []).getD 0 0
        = ((do_run net2.layers [0]).getLastD []).getD 0 0
          * (1 - ((do_run net2.layers [0]).getLastD []).getD 0 0)
          * (([0] : List ℝ).getD 0 0 - ((do_run net2.layers [0]).getLastD []).getD 0 0)) ∧
    (0 + 1 < net2.layers.length ∧ 0 < (net2.layers.getD 0 []).length ∧
      ((network_errors net2.layers (do_run net2.layers [0]) [0]).getD 0 []).getD 0 0
        = ((do_run net2.layers [0]).getD (0 + 1) []).getD 0 0
          * (1 - ((do_run net2.layers [0]).getD (0 + 1) []).getD 0 0)
          * ∑ k in Finset.range ((net2.layers.getD (0 + 1) []).length),
              ((net2.layers.getD (0 + 1) []).getD k []).getD (0 + 1) 0
                * ((network_errors net2.layers (do_run net2.layers [0]) [0]).getD
                    (0 + 1) []).getD k 0) := by
  have h := backprop_errors_spec net2 [0] [0] (by simp [net2])
  exact ⟨by simp [net2],
    ⟨by simp [net2], h.1 0 (by simp [net2])⟩,
    ⟨by simp [net2], by simp [net2], h.2 0 0 (by simp [net2]) (by simp [net2])⟩⟩

/-- witness for C6 at concrete size lists and the constant-zero generator. -/
theorem new_spec_witness :
    (NN.new (fun _ => 0) [1] = none) ∧
    (NN.new (fun _ => 0) [2, 0] = none) ∧
    (∃ net, NN.new (fun _ => 0) [2, 3, 1] = some net ∧
      net.layers.length = ([2, 3, 1] : List ℕ).length - 1 ∧
      (∀ i, ∀ node ∈ net.layers.getD i [], node.length = ([2, 3, 1] : List ℕ).getD i 0 + 1) ∧
      (∀ layer ∈ net.layers, ∀ node ∈ layer, ∀ w ∈ node, -0.5 ≤ w ∧ w < 0.5)) := by
  have hrng : ∀ n : ℕ, -0.5 ≤ (0 : ℝ) ∧ (0 : ℝ) < 0.5 := fun _ => by norm_num
  refine ⟨(new_spec _ hrng [1]).1 (by norm_num),
          (new_spec _ hrng [2, 0]).2.1 (by norm_num),
          (new_spec _ hrng [2, 3, 1]).2.2 (by norm_num) (by norm_num)⟩

end

end RustNN
